import Mathlib

/-!
Shallow embedding of the `bytemap` Go package: an immutable
`map[string]interface{}` encoded as a byte slice.

The authoritative revision is the one with `doSplit`/`Iterate(includeValue,
includeBytes, cb)` (the revision the test file compiles against); the older
`bytemap.go` revision differs only in its `Slice` implementation, which is
embedded separately (`SliceOld`) for the claim about it.

Modelling conventions:
* A Go byte slice is a `List Nat` whose elements are below 256 for well-formed
  data; reads past the end (a Go panic) are totalised with default 0, and all
  theorems are stated over well-formed buffers where no out-of-range read
  happens.
* Go strings and map keys are their byte sequences (`List Nat`).
* `float32`/`float64` values are represented by their IEEE bit patterns
  (`math.Float32bits`/`math.Float64bits` are bijections onto 32/64-bit words,
  and encode/decode move only the bit pattern).
* A `time.Time` value is represented by its `UnixNano` instant: encoding
  writes `uint64(v.UnixNano())` and decoding builds
  `time.Unix(nanos/1e9, nanos%1e9)`, whose `UnixNano` is again `nanos`
  (Go division truncates toward zero, so `q*1e9 + r = nanos`).
* Go's dynamically typed `interface{}` values are the inductive `Value`;
  `Value.unsupported` stands for a value of any type outside the switch in
  `encodeValue` (e.g. `[]float64`), which the code encodes as `TypeNil` with
  zero bytes.
* Loops that scan a buffer advance their cursor by at least 3 bytes per
  iteration, so they are modelled by fuel recursion with fuel
  `length + 1`, which is proven sufficient in the scan lemmas.
-/

/-- Type tag constants, in the `iota` order of the source. -/
def TypeNil : Nat := 0

def TypeBool : Nat := 1

def TypeByte : Nat := 2

def TypeUInt16 : Nat := 3

def TypeUInt32 : Nat := 4

def TypeUInt64 : Nat := 5

def TypeInt8 : Nat := 6

def TypeInt16 : Nat := 7

def TypeInt32 : Nat := 8

def TypeInt64 : Nat := 9

def TypeInt : Nat := 10

def TypeFloat32 : Nat := 11

def TypeFloat64 : Nat := 12

def TypeString : Nat := 13

def TypeTime : Nat := 14

def TypeUInt : Nat := 15

/-- Size constants from the source. -/
def SizeKeyLen : Nat := 2

def SizeValueType : Nat := 1

def SizeValueOffset : Nat := 4

/-- Read the byte at index `i` of a buffer (0 past the end). -/
def byteAt (bm : List Nat) (i : Nat) : Nat := bm.getD i 0

/-- Little-endian `uint16` read at offset `i` (`enc.Uint16(bm[i:])`). -/
def readU16at (bm : List Nat) (i : Nat) : Nat :=
  byteAt bm i + 256 * byteAt bm (i + 1)

/-- Little-endian `uint32` read at offset `i` (`enc.Uint32(bm[i:])`). -/
def readU32at (bm : List Nat) (i : Nat) : Nat :=
  byteAt bm i + 256 * byteAt bm (i + 1) + 65536 * byteAt bm (i + 2) +
    16777216 * byteAt bm (i + 3)

/-- Little-endian `uint64` read at offset `i` (`enc.Uint64(bm[i:])`). -/
def readU64at (bm : List Nat) (i : Nat) : Nat :=
  byteAt bm i + 256 * byteAt bm (i + 1) + 65536 * byteAt bm (i + 2) +
    16777216 * byteAt bm (i + 3) + 4294967296 * byteAt bm (i + 4) +
    1099511627776 * byteAt bm (i + 5) + 281474976710656 * byteAt bm (i + 6) +
    72057594037927936 * byteAt bm (i + 7)

def readU16 (l : List Nat) : Nat := readU16at l 0

def readU32 (l : List Nat) : Nat := readU32at l 0

def readU64 (l : List Nat) : Nat := readU64at l 0

/-- The two bytes written by `enc.PutUint16` (truncation to 16 bits built in,
matching the Go conversion to `uint16`). -/
def u16le (n : Nat) : List Nat := [n % 256, n / 256 % 256]

/-- The four bytes written by `enc.PutUint32`. -/
def u32le (n : Nat) : List Nat :=
  [n % 256, n / 256 % 256, n / 65536 % 256, n / 16777216 % 256]

/-- The eight bytes written by `enc.PutUint64`. -/
def u64le (n : Nat) : List Nat :=
  [n % 256, n / 256 % 256, n / 65536 % 256, n / 16777216 % 256,
   n / 4294967296 % 256, n / 1099511627776 % 256, n / 281474976710656 % 256,
   n / 72057594037927936 % 256]

/-- Reinterpret an unsigned `w`-bit word as a signed integer (the Go
conversions `int8(b)`, `int16(u)`, `int64(u)`, ...). -/
def toSigned (w : Nat) (n : Nat) : Int :=
  if n < 2 ^ (w - 1) then (n : Int) else (n : Int) - 2 ^ w

/-- The dynamically typed values of the source: each constructor is one case
of the type switch in `encodeValue`, with `unsupported` standing for any Go
value of a type outside the switch.  Integer payloads carry the mathematical
value; float payloads carry the IEEE bit pattern; `time` carries `UnixNano`. -/
inductive Value where
  | nil : Value
  | bool (b : Bool) : Value
  | byte (n : Nat) : Value
  | uint16 (n : Nat) : Value
  | uint32 (n : Nat) : Value
  | uint64 (n : Nat) : Value
  | uintp (n : Nat) : Value
  | int8 (n : Int) : Value
  | int16 (n : Int) : Value
  | int32 (n : Int) : Value
  | int64 (n : Int) : Value
  | intp (n : Int) : Value
  | float32 (bits : Nat) : Value
  | float64 (bits : Nat) : Value
  | str (s : List Nat) : Value
  | time (nanos : Int) : Value
  | unsupported : Value
  deriving DecidableEq

/-- `encodeValue(slice, value) (byte, int)`: returns the type tag and the
bytes written (the Go function writes them into `slice` and returns their
count). -/
def encodeValue : Value → Nat × List Nat
  | .bool b => (TypeBool, [if b then 1 else 0])
  | .byte v => (TypeByte, [v % 256])
  | .uint16 v => (TypeUInt16, u16le v)
  | .uint32 v => (TypeUInt32, u32le v)
  | .uint64 v => (TypeUInt64, u64le v)
  | .uintp v => (TypeUInt, u64le v)
  | .int8 v => (TypeInt8, [(v % 256).toNat])
  | .int16 v => (TypeInt16, u16le (v % 65536).toNat)
  | .int32 v => (TypeInt32, u32le (v % 4294967296).toNat)
  | .int64 v => (TypeInt64, u64le (v % 18446744073709551616).toNat)
  | .intp v => (TypeInt, u64le (v % 18446744073709551616).toNat)
  | .float32 bits => (TypeFloat32, u32le bits)
  | .float64 bits => (TypeFloat64, u64le bits)
  | .str s => (TypeString, u16le s.length ++ s)
  | .time nanos => (TypeTime, u64le (nanos % 18446744073709551616).toNat)
  | .nil => (TypeNil, [])
  | .unsupported => (TypeNil, [])

/-- Tag component of `encodeValue`. -/
def encTag (v : Value) : Nat := (encodeValue v).1

/-- Byte component of `encodeValue`. -/
def encBytes (v : Value) : List Nat := (encodeValue v).2

/-- `decodeValue(slice, t)`: decode the value starting at the head of
`slice` according to tag `t`. -/
def decodeValue (slice : List Nat) (t : Nat) : Value :=
  match t with
  | 1 => .bool (byteAt slice 0 == 1)
  | 2 => .byte (byteAt slice 0)
  | 3 => .uint16 (readU16 slice)
  | 4 => .uint32 (readU32 slice)
  | 5 => .uint64 (readU64 slice)
  | 15 => .uintp (readU64 slice)
  | 6 => .int8 (toSigned 8 (byteAt slice 0))
  | 7 => .int16 (toSigned 16 (readU16 slice))
  | 8 => .int32 (toSigned 32 (readU32 slice))
  | 9 => .int64 (toSigned 64 (readU64 slice))
  | 10 => .intp (toSigned 64 (readU64 slice))
  | 11 => .float32 (readU32 slice)
  | 12 => .float64 (readU64 slice)
  | 13 => .str ((slice.drop 2).take (readU16 slice))
  | 14 => .time (toSigned 64 (readU64 slice))
  | _ => .nil

/-- `encodedLength(value)`: encoded width without writing (the source's own
independent switch, used by the Builder's first pass). -/
def encodedLength : Value → Nat
  | .bool _ => 1
  | .byte _ => 1
  | .int8 _ => 1
  | .uint16 _ => 2
  | .int16 _ => 2
  | .uint32 _ => 4
  | .int32 _ => 4
  | .float32 _ => 4
  | .uint64 _ => 8
  | .int64 _ => 8
  | .uintp _ => 8
  | .intp _ => 8
  | .float64 _ => 8
  | .time _ => 8
  | .str s => s.length + 2
  | .nil => 0
  | .unsupported => 0

/-- `(bm ByteMap) lengthOf(valueOffset, t)`: width of the value stored at
`valueOffset` with tag `t` (strings read their own 2-byte length prefix). -/
def lengthOfAt (bm : List Nat) (valueOffset : Nat) (t : Nat) : Nat :=
  match t with
  | 1 => 1
  | 2 => 1
  | 6 => 1
  | 3 => 2
  | 7 => 2
  | 4 => 4
  | 8 => 4
  | 11 => 4
  | 5 => 8
  | 9 => 8
  | 15 => 8
  | 10 => 8
  | 12 => 8
  | 14 => 8
  | 13 => readU16at bm valueOffset + 2
  | _ => 0

/-- `bytes.Compare` on raw key bytes (lexicographic). -/
def bytesCompare : List Nat → List Nat → Ordering
  | [], [] => .eq
  | [], _ :: _ => .lt
  | _ :: _, [] => .gt
  | a :: as, b :: bs =>
    if a < b then .lt else if b < a then .gt else bytesCompare as bs

/-- The (non-strict) key order used to model `sort.Strings`. -/
def keyLe (a b : List Nat) : Prop := bytesCompare a b ≠ Ordering.gt

instance : DecidableRel keyLe := fun a b => by
  unfold keyLe; exact inferInstance

/-- One header entry's length: `len(key) + SizeKeyLen + SizeValueType`, plus
`SizeValueOffset` when the encoded value is non-empty (first Builder pass). -/
def entryHeaderLen (e : List Nat × Value) : Nat :=
  e.1.length + SizeKeyLen + SizeValueType +
    (if encodedLength e.2 > 0 then SizeValueOffset else 0)

/-- `keysLen` accumulated over the first Builder pass. -/
def headerLen : List (List Nat × Value) → Nat
  | [] => 0
  | e :: r => entryHeaderLen e + headerLen r

/-- `valuesLen` accumulated over the first Builder pass. -/
def valuesLen : List (List Nat × Value) → Nat
  | [] => 0
  | e :: r => encodedLength e.2 + valuesLen r

/-- Header bytes of one entry given the running value cursor: length-prefixed
key, type tag, and (for a non-`Nil` tag) the absolute value offset. -/
def hdrOne (e : List Nat × Value) (vo : Nat) : List Nat :=
  u16le e.1.length ++ e.1 ++ [encTag e.2] ++
    (if encTag e.2 ≠ TypeNil then u32le vo else [])

/-- Header region written by the Builder's second pass, starting with value
cursor `vo` (the cursor advances by each entry's encoded width). -/
def hdr : List (List Nat × Value) → Nat → List Nat
  | [], _ => []
  | e :: r, vo => hdrOne e vo ++ hdr r (vo + (encBytes e.2).length)

/-- Value region written by the Builder's second pass. -/
def valsBytes : List (List Nat × Value) → List Nat
  | [] => []
  | e :: r => encBytes e.2 ++ valsBytes r

/-- `Build(iterate, valueFor, iteratesSorted)`.  The iterated key/value pairs
are `pairs`; when `iteratesSorted` is false the keys are sorted and the values
re-fetched through `valueFor`, exactly as the source builds `finalIterate`.
The buffer is the header region followed by the value region, with
`startOfValues` computed by the first pass over `pairs`. -/
def Build (pairs : List (List Nat × Value)) (valueFor : List Nat → Value)
    (iteratesSorted : Bool) : List Nat :=
  let startOfValues := headerLen pairs
  let finalPairs :=
    if iteratesSorted then pairs
    else (List.insertionSort keyLe (pairs.map Prod.fst)).map
      (fun k => (k, valueFor k))
  hdr finalPairs startOfValues ++ valsBytes finalPairs

/-- Go map indexing `m[key]` on an association list (zero value `nil` when
the key is missing); also the reference result of a point lookup. -/
def lookupList : List (List Nat × Value) → List Nat → Value
  | [], _ => Value.nil
  | e :: r, k => if e.1 = k then e.2 else lookupList r k

/-- `New(m)`: build from a map, sorting the keys (the `iteratesSorted=false`
path, with `valueFor key = m[key]`).  The association list `m` may list its
entries in any order, like a Go map iteration. -/
def NewBM (m : List (List Nat × Value)) : List Nat :=
  Build m (fun k => lookupList m k) false

/-- `FromSortedKeysAndValues(keys, values)`: the pre-sorted entry point
(`iteratesSorted=true`; `valueFor` is passed as `nil` and never used). -/
def FromSortedKeysAndValues (keys : List (List Nat)) (values : List Value) :
    List Nat :=
  Build (keys.zip values) (fun _ => Value.nil) true

/-- The canonical buffer for a sorted entry list (what `Build` produces on the
sorted path); every well-formed Builder output equals `encodeMap` of its
sorted entries. -/
def encodeMap (es : List (List Nat × Value)) : List Nat :=
  Build es (fun _ => Value.nil) true

/-- The scan loop of `Get`, with fuel.  State: cursor `keyOffset` and the
sentinel `firstValueOffset` (0 = not yet seen).  Each iteration reads the
length-prefixed key, compares it with the target, reads the tag, and either
returns, stops at the header/value boundary, or continues. -/
def getLoop (bm : List Nat) (keyBytes : List Nat) :
    Nat → Nat → Nat → Value
  | 0, _, _ => Value.nil
  | fuel + 1, keyOffset, firstValueOffset =>
    if keyOffset ≥ bm.length then Value.nil
    else
      let keyLen := readU16at bm keyOffset
      let keysMatch := (bm.drop (keyOffset + SizeKeyLen)).take keyLen = keyBytes
      let koT := keyOffset + SizeKeyLen + keyLen
      let t := byteAt bm koT
      let ko := koT + SizeValueType
      if t = TypeNil then
        if keysMatch then Value.nil
        else if firstValueOffset > 0 ∧ ko ≥ firstValueOffset then Value.nil
        else getLoop bm keyBytes fuel ko firstValueOffset
      else
        let valueOffset := readU32at bm ko
        let fvo := if firstValueOffset = 0 then valueOffset else firstValueOffset
        if keysMatch then decodeValue (bm.drop valueOffset) t
        else
          let ko2 := ko + SizeValueOffset
          if fvo > 0 ∧ ko2 ≥ fvo then Value.nil
          else getLoop bm keyBytes fuel ko2 fvo

/-- `Get(bm, key)`: point lookup; returns `Value.nil` both for a key stored
with a `Nil` tag and for a missing key, exactly like the Go `nil` result. -/
def Get (bm : List Nat) (key : List Nat) : Value :=
  getLoop bm key (bm.length + 1) 0 0

/-- The scan loop of `Iterate` with an always-continue callback, collecting
the visited `(key, value)` pairs in order (`includeValue=true`). -/
def iterLoop (bm : List Nat) : Nat → Nat → Nat → List (List Nat × Value)
  | 0, _, _ => []
  | fuel + 1, keyOffset, firstValueOffset =>
    if keyOffset ≥ bm.length then []
    else
      let keyLen := readU16at bm keyOffset
      let key := (bm.drop (keyOffset + SizeKeyLen)).take keyLen
      let koT := keyOffset + SizeKeyLen + keyLen
      let t := byteAt bm koT
      let ko := koT + SizeValueType
      if t = TypeNil then
        (key, Value.nil) ::
          (if firstValueOffset > 0 ∧ ko ≥ firstValueOffset then []
           else iterLoop bm fuel ko firstValueOffset)
      else
        let valueOffset := readU32at bm ko
        let fvo := if firstValueOffset = 0 then valueOffset else firstValueOffset
        let v := decodeValue (bm.drop valueOffset) t
        let ko2 := ko + SizeValueOffset
        (key, v) ::
          (if fvo > 0 ∧ ko2 ≥ fvo then [] else iterLoop bm fuel ko2 fvo)

/-- `Iterate(true, false, cb)` with a callback that always continues: the
sequence of `(key, value)` pairs passed to the callback. -/
def Iterate (bm : List Nat) : List (List Nat × Value) :=
  iterLoop bm (bm.length + 1) 0 0

/-- `AsMap(bm)`: inserts every iterated pair into a fresh map.  The result is
kept as the association list of iterated pairs; buffers we consider have
pairwise distinct keys, so this list is the map. -/
def AsMap (bm : List Nat) : List (List Nat × Value) := Iterate bm
/-- Inner loop of `doSplit`'s `advance` closure once a first requested key is
at hand: requested keys strictly below the candidate are consumed; reaching
the end of the requested keys sets them to Go `nil` (`none`).  The matched
key is not consumed. -/
def advGo (candidate : List Nat) (k : List Nat) (ks : List (List Nat)) :
    Bool × Option (List (List Nat)) :=
  if bytesCompare candidate k == Ordering.gt then
    match ks with
    | [] => (false, none)
    | k2 :: ks2 => advGo candidate k2 ks2
  else (bytesCompare candidate k == Ordering.eq, some (k :: ks))

/-- `advance(candidate)` of `doSplit`.  `none` for `keyBytes` models Go `nil`
(the closure returns `false` at once); an empty non-`nil` slice makes the Go
code index `keyBytes[0]` out of range, modelled as the outer `none` (panic). -/
def advanceM (keyBytes : Option (List (List Nat))) (candidate : List Nat) :
    Option (Bool × Option (List (List Nat))) :=
  match keyBytes with
  | none => some (false, none)
  | some [] => none
  | some (k :: ks) => some (advGo candidate k ks)

/-- `len(keyBytes) == 0` (Go `len` of a `nil` slice is 0). -/
def kbsEmpty : Option (List (List Nat)) → Bool
  | none => true
  | some l => l.isEmpty

/-- The scan loop of `doSplit`, with fuel.  Accumulators hold, per kept
entry, its header bytes up to and including the tag, and its raw value bytes
(the Go code also tracks the running length sums and relative offsets, which
are recomputed from these lists when the output is assembled).  `none` models
a Go panic. -/
def doSplitLoop (bm : List Nat) (includeOmitted : Bool) :
    Nat → Nat → Nat → Option (List (List Nat)) →
    List (List Nat × List Nat) → List (List Nat × List Nat) →
    Option (List (List Nat × List Nat) × List (List Nat × List Nat))
  | 0, _, _, _, _, _ => none
  | fuel + 1, keyOffset, firstValueOffset, keyBytes, accM, accO =>
    if keyOffset ≥ bm.length then some (accM, accO)
    else
      let keyStart := keyOffset
      let keyLen := readU16at bm keyOffset
      let candidate := (bm.drop (keyOffset + SizeKeyLen)).take keyLen
      match advanceM keyBytes candidate with
      | none => none
      | some (matched, keyBytes2) =>
        let koT := keyOffset + SizeKeyLen + keyLen
        let t := byteAt bm koT
        let ko := koT + SizeValueType
        if t = TypeNil then
          if ko ≥ firstValueOffset then some (accM, accO)
          else if ¬includeOmitted ∧ kbsEmpty keyBytes2 then some (accM, accO)
          else doSplitLoop bm includeOmitted fuel ko firstValueOffset keyBytes2
            accM accO
        else
          let valueOffset := readU32at bm ko
          let fvo :=
            if firstValueOffset = 0 then valueOffset else firstValueOffset
          let valueLen := lengthOfAt bm valueOffset t
          let value := (bm.drop valueOffset).take valueLen
          let hdrBytes := (bm.drop keyStart).take (ko - keyStart)
          let accM2 := if matched then accM ++ [(hdrBytes, value)] else accM
          let accO2 :=
            if ¬matched ∧ includeOmitted then accO ++ [(hdrBytes, value)]
            else accO
          let ko2 := ko + SizeValueOffset
          if ko2 ≥ fvo then some (accM2, accO2)
          else if ¬includeOmitted ∧ kbsEmpty keyBytes2 then some (accM2, accO2)
          else doSplitLoop bm includeOmitted fuel ko2 fvo keyBytes2 accM2 accO2

/-- `buildFromSliced(keysLen, valuesLen, keys, valueOffsets, values)`: pack
kept header chunks, rebasing each non-negative relative value offset by
`keysLen`, then append the value bytes.  (`valuesLen` is used by the Go code
only to size the allocation.) -/
def buildFromSliced (keysLen : Nat) (valuesLen : Nat) (keys : List (List Nat))
    (valueOffsets : List Int) (values : List (List Nat)) : List Nat :=
  ((keys.zip valueOffsets).map fun kv =>
      kv.1 ++ (if kv.2 ≥ 0 then u32le (kv.2.toNat + keysLen) else [])).flatten
    ++ values.flatten

/-- `matchedKeysLen`: header chunk lengths plus one offset field each (the
accumulators only ever hold entries with non-`Nil` tags). -/
def accKeysLen (acc : List (List Nat × List Nat)) : Nat :=
  (acc.map (fun e => e.1.length + SizeValueOffset)).sum

/-- `matchedValuesLen`. -/
def accValuesLen (acc : List (List Nat × List Nat)) : Nat :=
  (acc.map (fun e => e.2.length)).sum

/-- `matchedValueOffsets`: the running `valuesLen` at each append. -/
def accOffsets : List (List Nat × List Nat) → Nat → List Int
  | [], _ => []
  | e :: r, n => (n : Int) :: accOffsets r (n + e.2.length)

/-- `doSplit(includeOmitted, keys)`: sort the requested keys, scan, and pack
each accumulator with `buildFromSliced`.  `none` models a Go panic. -/
def doSplit (bm : List Nat) (includeOmitted : Bool)
    (keys : List (List Nat)) : Option (List Nat × List Nat) :=
  let sorted := List.insertionSort keyLe keys
  match doSplitLoop bm includeOmitted (bm.length + 1) 0 0 (some sorted) [] [] with
  | none => none
  | some (accM, accO) =>
    some (buildFromSliced (accKeysLen accM) (accValuesLen accM)
        (accM.map Prod.fst) (accOffsets accM 0) (accM.map Prod.snd),
      if includeOmitted then
        buildFromSliced (accKeysLen accO) (accValuesLen accO)
          (accO.map Prod.fst) (accOffsets accO 0) (accO.map Prod.snd)
      else [])

/-- `Slice(keys...)`: `doSplit` without the omitted half. -/
def Slice (bm : List Nat) (keys : List (List Nat)) : Option (List Nat) :=
  (doSplit bm false keys).map Prod.fst

/-- `Split(keys...)`: `doSplit` with both halves. -/
def Split (bm : List Nat) (keys : List (List Nat)) :
    Option (List Nat × List Nat) :=
  doSplit bm true keys
/-- The `advance` closure of the older `bytemap.go` revision's `Slice`: a
requested key strictly below the candidate is emitted as a `Nil`-tagged
placeholder entry (length-prefixed key bytes, zero tag byte) and consumed; on
a match the requested key is consumed.  Returns the new value of the closure
variable `matched` (`none` = left untouched, as happens when the requested
keys run out on the consume path), the new `keyBytes` (Go `nil` = `none`),
and the emitted placeholder chunks in order. -/
def advOldGo (candidate : List Nat) (k : List Nat) (ks : List (List Nat)) :
    Option Bool × Option (List (List Nat)) × List (List Nat) :=
  if bytesCompare candidate k == Ordering.gt then
    let b := u16le k.length ++ k ++ [TypeNil]
    match ks with
    | [] => (none, none, [b])
    | k2 :: ks2 =>
      let r := advOldGo candidate k2 ks2
      (r.1, r.2.1, b :: r.2.2)
  else
    let m := bytesCompare candidate k == Ordering.eq
    (some m, if m then (match ks with | [] => none | _ => some ks)
             else some (k :: ks), [])

/-- Scan loop of the older revision's `Slice`.  The accumulator pairs each
kept header chunk with its `valueOffsets` entry (−1 for placeholders and
`Nil`-tagged matches); `accV` collects the matched value chunks.  Note two
quirks of this revision, reproduced faithfully: `firstValueOffset` is read at
the already-advanced cursor (the next entry's first bytes), and the
`keyOffset >= firstValueOffset` comparison is not guarded by
`firstValueOffset > 0`. -/
def sliceOldLoop (bm : List Nat) :
    Nat → Nat → Nat → Bool → Option (List (List Nat)) →
    List (List Nat × Int) → List (List Nat) →
    Option (List (List Nat × Int) × List (List Nat))
  | 0, _, _, _, _, _, _ => none
  | fuel + 1, keyOffset, firstValueOffset, matched, keyBytes, acc, accV =>
    if keyOffset ≥ bm.length then some (acc, accV)
    else
      let keyStart := keyOffset
      let keyLen := readU16at bm keyOffset
      let candidate := (bm.drop (keyOffset + SizeKeyLen)).take keyLen
      match keyBytes with
      | none => none
      | some [] => none
      | some (k :: ks) =>
        let adv := advOldGo candidate k ks
        let matched2 := adv.1.getD matched
        let keyBytes2 := adv.2.1
        let acc1 := acc ++ adv.2.2.map (fun b => (b, (-1 : Int)))
        let koT := keyOffset + SizeKeyLen + keyLen
        let t := byteAt bm koT
        let ko := koT + SizeValueType
        let chunk := (bm.drop keyStart).take (ko - keyStart)
        let valueOffset := readU32at bm ko
        let acc2 :=
          if matched2 then
            if t = TypeNil then acc1 ++ [(chunk, (-1 : Int))]
            else acc1 ++ [(chunk, ((accV.map List.length).sum : Int))]
          else acc1
        let accV2 :=
          if matched2 ∧ t ≠ TypeNil then
            accV ++ [(bm.drop valueOffset).take (lengthOfAt bm valueOffset t)]
          else accV
        let ko2 := if t ≠ TypeNil then ko + SizeValueOffset else ko
        match keyBytes2 with
        | none => some (acc2, accV2)
        | some l =>
          let fvo2 :=
            if t ≠ TypeNil ∧ firstValueOffset = 0 then readU32at bm ko2
            else firstValueOffset
          if ko2 ≥ fvo2 then some (acc2, accV2)
          else if l.isEmpty then some (acc2, accV2)
          else sliceOldLoop bm fuel ko2 fvo2 matched2 (some l) acc2 accV2

/-- The older `bytemap.go` revision's `Slice(keys...)`: documented as
"Any keys that were not found in the original will appear in the result with
a nil value."  The output packing duplicates `buildFromSliced`, so it is
assembled through the same function. -/
def SliceOld (bm : List Nat) (keys : List (List Nat)) : Option (List Nat) :=
  let sorted := List.insertionSort keyLe keys
  match sliceOldLoop bm (bm.length + 1) 0 0 false (some sorted) [] [] with
  | none => none
  | some (acc, accV) =>
    some (buildFromSliced
      ((acc.map (fun e =>
          e.1.length + if e.2 ≥ 0 then SizeValueOffset else 0)).sum)
      ((accV.map List.length).sum)
      (acc.map Prod.fst) (acc.map Prod.snd) accV)

/-- Payload bounds of one Go value: each constructor's payload fits its Go
type (bytes below 256, integers in range, string length below 2^16);
`unsupported` is excluded. -/
def valueWF : Value → Bool
  | .nil => true
  | .bool _ => true
  | .byte n => decide (n < 256)
  | .uint16 n => decide (n < 65536)
  | .uint32 n => decide (n < 4294967296)
  | .uint64 n => decide (n < 18446744073709551616)
  | .uintp n => decide (n < 18446744073709551616)
  | .int8 n => decide (-128 ≤ n) && decide (n < 128)
  | .int16 n => decide (-32768 ≤ n) && decide (n < 32768)
  | .int32 n => decide (-2147483648 ≤ n) && decide (n < 2147483648)
  | .int64 n =>
    decide (-9223372036854775808 ≤ n) && decide (n < 9223372036854775808)
  | .intp n =>
    decide (-9223372036854775808 ≤ n) && decide (n < 9223372036854775808)
  | .float32 b => decide (b < 4294967296)
  | .float64 b => decide (b < 18446744073709551616)
  | .str s => decide (s.length < 65536) && s.all (fun b => decide (b < 256))
  | .time n =>
    decide (-9223372036854775808 ≤ n) && decide (n < 9223372036854775808)
  | .unsupported => false

/-- A Go string key: length fits the 2-byte prefix, bytes below 256. -/
def keyWF (k : List Nat) : Bool :=
  decide (k.length < 65536) && k.all (fun b => decide (b < 256))

/-- Strictly ascending byte-wise key order (keys unique). -/
def keysStrictSorted : List (List Nat) → Bool
  | [] => true
  | [_] => true
  | a :: b :: r =>
    decide (bytesCompare a b = Ordering.lt) && keysStrictSorted (b :: r)

/-- Well-formed sorted entry list: every key and value well formed, keys
strictly ascending, and the whole buffer small enough that stored `uint32`
offsets are exact. -/
def entriesWF (es : List (List Nat × Value)) : Bool :=
  es.all (fun e => keyWF e.1 && valueWF e.2) &&
    keysStrictSorted (es.map Prod.fst) &&
    decide (headerLen es + valuesLen es < 4294967296)

/-- Propositional form of `entriesWF`. -/
def EntriesWF (es : List (List Nat × Value)) : Prop := entriesWF es = true

instance (es : List (List Nat × Value)) : Decidable (EntriesWF es) := by
  unfold EntriesWF; exact inferInstance
lemma byteAt_drop (bm : List Nat) (off i : Nat) :
    byteAt (bm.drop off) i = byteAt bm (off + i) := by
  simp [byteAt, List.getD_eq_getElem?_getD, List.getElem?_drop]

lemma byteAt_append_right (a b : List Nat) (i : Nat) :
    byteAt (a ++ b) (a.length + i) = byteAt b i := by
  have h := byteAt_drop (a ++ b) a.length i
  rw [List.drop_left] at h
  exact h.symm

lemma readU16at_drop (bm : List Nat) (off : Nat) :
    readU16at bm off = readU16 (bm.drop off) := by
  simp [readU16, readU16at, byteAt_drop]

lemma readU32at_drop (bm : List Nat) (off : Nat) :
    readU32at bm off = readU32 (bm.drop off) := by
  simp [readU32, readU32at, byteAt_drop]

lemma readU64at_drop (bm : List Nat) (off : Nat) :
    readU64at bm off = readU64 (bm.drop off) := by
  simp [readU64, readU64at, byteAt_drop]

lemma readU16_u16le (n : Nat) (rest : List Nat) :
    readU16 (u16le n ++ rest) = n % 65536 := by
  show n % 256 + 256 * (n / 256 % 256) = n % 65536
  omega

lemma readU32_u32le (n : Nat) (rest : List Nat) :
    readU32 (u32le n ++ rest) = n % 4294967296 := by
  show n % 256 + 256 * (n / 256 % 256) + 65536 * (n / 65536 % 256) +
      16777216 * (n / 16777216 % 256) = n % 4294967296
  omega

lemma readU64_u64le (n : Nat) (rest : List Nat) :
    readU64 (u64le n ++ rest) = n % 18446744073709551616 := by
  show n % 256 + 256 * (n / 256 % 256) + 65536 * (n / 65536 % 256) +
      16777216 * (n / 16777216 % 256) + 4294967296 * (n / 4294967296 % 256) +
      1099511627776 * (n / 1099511627776 % 256) +
      281474976710656 * (n / 281474976710656 % 256) +
      72057594037927936 * (n / 72057594037927936 % 256) =
      n % 18446744073709551616
  omega

lemma u16le_length (n : Nat) : (u16le n).length = 2 := rfl

lemma u32le_length (n : Nat) : (u32le n).length = 4 := rfl

lemma u64le_length (n : Nat) : (u64le n).length = 8 := rfl

/-- The byte list returned by the codec has exactly the width that
`encodedLength` predicts (proved again per claim C8; used internally). -/
lemma encBytes_length (v : Value) :
    (encBytes v).length = encodedLength v := by
  cases v <;>
    simp [encBytes, encodeValue, encodedLength, u16le, u32le, u64le]

lemma encTag_eq_zero_iff (v : Value) :
    encTag v = TypeNil ↔ v = Value.nil ∨ v = Value.unsupported := by
  cases v <;> simp [encTag, encodeValue, TypeNil, TypeBool, TypeByte,
    TypeUInt16, TypeUInt32, TypeUInt64, TypeInt8, TypeInt16, TypeInt32,
    TypeInt64, TypeInt, TypeFloat32, TypeFloat64, TypeString, TypeTime,
    TypeUInt]

lemma encodedLength_eq_zero_iff (v : Value) :
    encodedLength v = 0 ↔ v = Value.nil ∨ v = Value.unsupported := by
  cases v <;> simp [encodedLength]

lemma encodedLength_pos_iff_tag (v : Value) :
    0 < encodedLength v ↔ encTag v ≠ TypeNil := by
  rw [Ne, encTag_eq_zero_iff, ← encodedLength_eq_zero_iff]
  omega

lemma valueWF_ne_unsupported (v : Value) (h : valueWF v = true) :
    v ≠ Value.unsupported := by
  cases v <;> simp_all [valueWF]

lemma tag_nil_value (v : Value) (h : valueWF v = true)
    (ht : encTag v = TypeNil) : v = Value.nil := by
  rcases (encTag_eq_zero_iff v).mp ht with h1 | h1
  · exact h1
  · exact absurd h1 (valueWF_ne_unsupported v h)

/-- Decoding the encoded bytes (with anything appended) with the encoded tag
recovers the value, for any well-formed value. -/
lemma decode_encode (v : Value) (hv : valueWF v = true) (rest : List Nat) :
    decodeValue (encBytes v ++ rest) (encTag v) = v := by
  cases v with
  | nil => rfl
  | unsupported => simp [valueWF] at hv
  | bool b =>
    cases b <;> rfl
  | byte n =>
    simp only [valueWF, decide_eq_true_eq] at hv
    show Value.byte (byteAt (n % 256 :: rest) 0) = Value.byte n
    simp [byteAt]
    omega
  | uint16 n =>
    simp only [valueWF, decide_eq_true_eq] at hv
    show Value.uint16 (readU16 (u16le n ++ rest)) = Value.uint16 n
    rw [readU16_u16le]
    congr 1
    omega
  | uint32 n =>
    simp only [valueWF, decide_eq_true_eq] at hv
    show Value.uint32 (readU32 (u32le n ++ rest)) = Value.uint32 n
    rw [readU32_u32le]
    congr 1
    omega
  | uint64 n =>
    simp only [valueWF, decide_eq_true_eq] at hv
    show Value.uint64 (readU64 (u64le n ++ rest)) = Value.uint64 n
    rw [readU64_u64le]
    congr 1
    omega
  | uintp n =>
    simp only [valueWF, decide_eq_true_eq] at hv
    show Value.uintp (readU64 (u64le n ++ rest)) = Value.uintp n
    rw [readU64_u64le]
    congr 1
    omega
  | int8 n =>
    simp only [valueWF, Bool.and_eq_true, decide_eq_true_eq] at hv
    show Value.int8 (toSigned 8 (byteAt ((n % 256).toNat :: rest) 0)) =
      Value.int8 n
    simp only [byteAt, List.getD_cons_zero, toSigned]
    congr 1
    split <;> rename_i hcond <;> omega
  | int16 n =>
    simp only [valueWF, Bool.and_eq_true, decide_eq_true_eq] at hv
    show Value.int16 (toSigned 16 (readU16 (u16le (n % 65536).toNat ++ rest))) =
      Value.int16 n
    rw [readU16_u16le]
    simp only [toSigned]
    congr 1
    split <;> rename_i hcond <;> omega
  | int32 n =>
    simp only [valueWF, Bool.and_eq_true, decide_eq_true_eq] at hv
    show Value.int32 (toSigned 32
        (readU32 (u32le (n % 4294967296).toNat ++ rest))) = Value.int32 n
    rw [readU32_u32le]
    simp only [toSigned]
    congr 1
    split <;> rename_i hcond <;> omega
  | int64 n =>
    simp only [valueWF, Bool.and_eq_true, decide_eq_true_eq] at hv
    show Value.int64 (toSigned 64
        (readU64 (u64le (n % 18446744073709551616).toNat ++ rest))) =
      Value.int64 n
    rw [readU64_u64le]
    simp only [toSigned]
    congr 1
    split <;> rename_i hcond <;> omega
  | intp n =>
    simp only [valueWF, Bool.and_eq_true, decide_eq_true_eq] at hv
    show Value.intp (toSigned 64
        (readU64 (u64le (n % 18446744073709551616).toNat ++ rest))) =
      Value.intp n
    rw [readU64_u64le]
    simp only [toSigned]
    congr 1
    split <;> rename_i hcond <;> omega
  | time n =>
    simp only [valueWF, Bool.and_eq_true, decide_eq_true_eq] at hv
    show Value.time (toSigned 64
        (readU64 (u64le (n % 18446744073709551616).toNat ++ rest))) =
      Value.time n
    rw [readU64_u64le]
    simp only [toSigned]
    congr 1
    split <;> rename_i hcond <;> omega
  | float32 b =>
    simp only [valueWF, decide_eq_true_eq] at hv
    show Value.float32 (readU32 (u32le b ++ rest)) = Value.float32 b
    rw [readU32_u32le]
    congr 1
    omega
  | float64 b =>
    simp only [valueWF, decide_eq_true_eq] at hv
    show Value.float64 (readU64 (u64le b ++ rest)) = Value.float64 b
    rw [readU64_u64le]
    congr 1
    omega
  | str s =>
    simp only [valueWF, Bool.and_eq_true, decide_eq_true_eq] at hv
    show Value.str ((((u16le s.length ++ s) ++ rest).drop 2).take
        (readU16 ((u16le s.length ++ s) ++ rest))) = Value.str s
    rw [List.append_assoc, readU16_u16le]
    have hlen : s.length % 65536 = s.length := Nat.mod_eq_of_lt hv.1
    rw [hlen]
    show Value.str ((s ++ rest).take s.length) = Value.str s
    rw [List.take_left]
lemma bytesCompare_eq_iff : ∀ a b : List Nat,
    bytesCompare a b = Ordering.eq ↔ a = b
  | [], [] => by simp [bytesCompare]
  | [], _ :: _ => by simp [bytesCompare]
  | _ :: _, [] => by simp [bytesCompare]
  | a :: as, b :: bs => by
    simp only [bytesCompare]
    by_cases h1 : a < b
    · simp only [if_pos h1]
      constructor
      · intro h; exact absurd h (by simp)
      · intro h; injection h with h h; omega
    · by_cases h2 : b < a
      · simp only [if_neg h1, if_pos h2]
        constructor
        · intro h; exact absurd h (by simp)
        · intro h; injection h with h h; omega
      · have hab : a = b := by omega
        subst hab
        simp only [if_neg h1, if_neg h2]
        rw [bytesCompare_eq_iff as bs]
        constructor
        · intro h; rw [h]
        · intro h; injection h

lemma bytesCompare_self (a : List Nat) : bytesCompare a a = Ordering.eq :=
  (bytesCompare_eq_iff a a).mpr rfl

lemma bytesCompare_gt_iff : ∀ a b : List Nat,
    bytesCompare a b = Ordering.gt ↔ bytesCompare b a = Ordering.lt
  | [], [] => by simp [bytesCompare]
  | [], _ :: _ => by simp [bytesCompare]
  | _ :: _, [] => by simp [bytesCompare]
  | a :: as, b :: bs => by
    simp only [bytesCompare]
    by_cases h1 : a < b
    · simp only [if_pos h1, if_neg (by omega : ¬b < a)]
      constructor
      · intro h; exact absurd h (by simp)
      · intro h; exact absurd h (by simp)
    · by_cases h2 : b < a
      · simp [if_neg h1, if_pos h2]
      · have hab : a = b := by omega
        subst hab
        simp only [if_neg h1, if_neg h2]
        exact bytesCompare_gt_iff as bs

lemma bytesCompare_lt_trans : ∀ a b c : List Nat,
    bytesCompare a b = Ordering.lt → bytesCompare b c = Ordering.lt →
    bytesCompare a c = Ordering.lt
  | [], [], _ => by intro h; exact absurd h (by simp [bytesCompare])
  | [], _ :: _, [] => by intro _ h; exact absurd h (by simp [bytesCompare])
  | [], _ :: _, _ :: _ => by intro _ _; simp [bytesCompare]
  | _ :: _, [], _ => by intro h; exact absurd h (by simp [bytesCompare])
  | _ :: _, _ :: _, [] => by intro _ h; exact absurd h (by simp [bytesCompare])
  | a :: as, b :: bs, c :: cs => by
    simp only [bytesCompare]
    intro h1 h2
    by_cases hab : a < b
    · by_cases hbc : b < c
      · simp [show a < c by omega]
      · by_cases hcb : c < b
        · rw [if_neg hbc, if_pos hcb] at h2; exact absurd h2 (by simp)
        · have : b = c := by omega
          subst this
          simp [show a < b from hab]
    · by_cases hba : b < a
      · rw [if_neg hab, if_pos hba] at h1; exact absurd h1 (by simp)
      · have : a = b := by omega
        subst this
        rw [if_neg hab, if_neg hba] at h1
        by_cases hbc : a < c
        · simp [hbc]
        · by_cases hcb : c < a
          · rw [if_neg hbc, if_pos hcb] at h2; exact absurd h2 (by simp)
          · have : a = c := by omega
            subst this
            rw [if_neg hbc, if_neg hcb] at h2 ⊢
            exact bytesCompare_lt_trans as bs cs h1 h2

instance : IsTotal (List Nat) keyLe := by
  constructor
  intro a b
  rcases h : bytesCompare a b with _ | _ | _
  · exact Or.inl (by simp [keyLe, h])
  · exact Or.inl (by simp [keyLe, h])
  · refine Or.inr ?_
    rw [bytesCompare_gt_iff] at h
    simp [keyLe, h]

instance : IsTrans (List Nat) keyLe := by
  constructor
  intro a b c hab hbc
  unfold keyLe at *
  rcases h1 : bytesCompare a b with _ | _ | _
  · rcases h2 : bytesCompare b c with _ | _ | _
    · have := bytesCompare_lt_trans a b c h1 h2
      simp [this]
    · rw [(bytesCompare_eq_iff b c).mp h2] at h1
      simp [h1]
    · exact absurd h2 hbc
  · rw [(bytesCompare_eq_iff a b).mp h1]
    exact hbc
  · exact absurd h1 hab

instance : IsAntisymm (List Nat) keyLe := by
  constructor
  intro a b hab hba
  unfold keyLe at *
  rcases h1 : bytesCompare a b with _ | _ | _
  · rw [← bytesCompare_gt_iff] at h1
    exact absurd h1 hba
  · exact (bytesCompare_eq_iff a b).mp h1
  · exact absurd h1 hab
lemma hdrOne_length (e : List Nat × Value) (vo : Nat) :
    (hdrOne e vo).length = entryHeaderLen e := by
  unfold hdrOne entryHeaderLen
  by_cases h : encTag e.2 ≠ TypeNil
  · rw [if_pos h, if_pos ((encodedLength_pos_iff_tag e.2).mpr h)]
    simp only [List.length_append, List.length_cons, List.length_nil, u16le,
      u32le, SizeKeyLen, SizeValueType, SizeValueOffset]
    omega
  · have h2 : ¬encodedLength e.2 > 0 := by
      show ¬0 < encodedLength e.2
      rw [encodedLength_pos_iff_tag]
      exact h
    rw [if_neg h, if_neg h2]
    simp only [List.length_append, List.length_cons, List.length_nil, u16le,
      SizeKeyLen, SizeValueType]
    omega

lemma hdr_length (es : List (List Nat × Value)) (vo : Nat) :
    (hdr es vo).length = headerLen es := by
  induction es generalizing vo with
  | nil => rfl
  | cons e r ih =>
    simp only [hdr, headerLen, List.length_append, hdrOne_length, ih]

lemma valsBytes_length (es : List (List Nat × Value)) :
    (valsBytes es).length = valuesLen es := by
  induction es with
  | nil => rfl
  | cons e r ih =>
    simp only [valsBytes, valuesLen, List.length_append, encBytes_length, ih]

lemma hdr_append (xs ys : List (List Nat × Value)) (vo : Nat) :
    hdr (xs ++ ys) vo = hdr xs vo ++ hdr ys (vo + valuesLen xs) := by
  induction xs generalizing vo with
  | nil => simp [hdr, valuesLen]
  | cons e r ih =>
    simp only [List.cons_append, hdr, List.append_eq]
    rw [ih, ← List.append_assoc]
    congr 2
    rw [encBytes_length]
    simp only [valuesLen]
    omega

lemma valsBytes_append (xs ys : List (List Nat × Value)) :
    valsBytes (xs ++ ys) = valsBytes xs ++ valsBytes ys := by
  induction xs with
  | nil => rfl
  | cons e r ih =>
    simp only [List.cons_append, valsBytes, List.append_eq]
    rw [ih, List.append_assoc]

lemma headerLen_append (xs ys : List (List Nat × Value)) :
    headerLen (xs ++ ys) = headerLen xs + headerLen ys := by
  induction xs with
  | nil => simp [headerLen]
  | cons e r ih =>
    simp only [List.cons_append, headerLen, List.append_eq]
    rw [ih]
    omega

lemma valuesLen_append (xs ys : List (List Nat × Value)) :
    valuesLen (xs ++ ys) = valuesLen xs + valuesLen ys := by
  induction xs with
  | nil => simp [valuesLen]
  | cons e r ih =>
    simp only [List.cons_append, valuesLen, List.append_eq]
    rw [ih]
    omega

lemma entryHeaderLen_ge (e : List Nat × Value) : 3 ≤ entryHeaderLen e := by
  unfold entryHeaderLen SizeKeyLen SizeValueType
  split <;> omega

lemma headerLen_eq_zero_iff (es : List (List Nat × Value)) :
    headerLen es = 0 ↔ es = [] := by
  cases es with
  | nil => simp [headerLen]
  | cons e r =>
    simp only [headerLen]
    have := entryHeaderLen_ge e
    constructor
    · intro h; omega
    · intro h; exact absurd h (by simp)

lemma length_le_headerLen (es : List (List Nat × Value)) :
    es.length ≤ headerLen es := by
  induction es with
  | nil => simp [headerLen]
  | cons e r ih =>
    simp only [List.length_cons, headerLen]
    have := entryHeaderLen_ge e
    omega

lemma encodeMap_eq (es : List (List Nat × Value)) :
    encodeMap es = hdr es (headerLen es) ++ valsBytes es := rfl

lemma encodeMap_length (es : List (List Nat × Value)) :
    (encodeMap es).length = headerLen es + valuesLen es := by
  rw [encodeMap_eq, List.length_append, hdr_length, valsBytes_length]

lemma encodeMap_nil : encodeMap [] = [] := rfl

lemma entriesWF_mem (es : List (List Nat × Value)) (hwf : EntriesWF es)
    (e : List Nat × Value) (he : e ∈ es) :
    keyWF e.1 = true ∧ valueWF e.2 = true := by
  unfold EntriesWF entriesWF at hwf
  simp only [Bool.and_eq_true, List.all_eq_true] at hwf
  have := hwf.1.1 e he
  simpa [Bool.and_eq_true] using this

lemma entriesWF_sorted (es : List (List Nat × Value)) (hwf : EntriesWF es) :
    keysStrictSorted (es.map Prod.fst) = true := by
  unfold EntriesWF entriesWF at hwf
  simp only [Bool.and_eq_true] at hwf
  exact hwf.1.2

lemma entriesWF_size (es : List (List Nat × Value)) (hwf : EntriesWF es) :
    headerLen es + valuesLen es < 4294967296 := by
  unfold EntriesWF entriesWF at hwf
  simp only [Bool.and_eq_true, decide_eq_true_eq] at hwf
  exact hwf.2

lemma keysStrictSorted_pairwise : ∀ ks : List (List Nat),
    keysStrictSorted ks = true →
    ks.Pairwise (fun a b => bytesCompare a b = Ordering.lt)
  | [] => by intro _; exact List.Pairwise.nil
  | [k] => by intro _; simp
  | a :: b :: r => by
    intro h
    simp only [keysStrictSorted, Bool.and_eq_true, decide_eq_true_eq] at h
    have htail := keysStrictSorted_pairwise (b :: r) h.2
    refine List.Pairwise.cons ?_ htail
    intro k hk
    rcases List.mem_cons.mp hk with rfl | hk2
    · exact h.1
    · have hb : ∀ k2 ∈ r, bytesCompare b k2 = Ordering.lt := by
        intro k2 hk2
        exact (List.pairwise_cons.mp htail).1 k2 hk2
      exact bytesCompare_lt_trans a b k h.1 (hb k hk2)

lemma pairwise_keysStrictSorted : ∀ ks : List (List Nat),
    ks.Pairwise (fun a b => bytesCompare a b = Ordering.lt) →
    keysStrictSorted ks = true
  | [] => by intro _; rfl
  | [k] => by intro _; rfl
  | a :: b :: r => by
    intro h
    rcases List.pairwise_cons.mp h with ⟨h1, h2⟩
    simp only [keysStrictSorted, Bool.and_eq_true, decide_eq_true_eq]
    exact ⟨h1 b (by simp), pairwise_keysStrictSorted (b :: r) h2⟩

lemma keysStrictSorted_nodup (ks : List (List Nat))
    (h : keysStrictSorted ks = true) : ks.Nodup := by
  have hp := keysStrictSorted_pairwise ks h
  refine hp.imp ?_
  intro a b hab
  intro he
  rw [he, bytesCompare_self] at hab
  exact absurd hab (by simp)

lemma keysStrictSorted_sorted (ks : List (List Nat))
    (h : keysStrictSorted ks = true) : List.Sorted keyLe ks := by
  have hp := keysStrictSorted_pairwise ks h
  refine hp.imp ?_
  intro a b hab
  simp [keyLe, hab]

lemma lookupList_eq_of_mem (es : List (List Nat × Value))
    (hnd : (es.map Prod.fst).Nodup) (k : List Nat) (v : Value)
    (hm : (k, v) ∈ es) : lookupList es k = v := by
  induction es with
  | nil => exact absurd hm (by simp)
  | cons e r ih =>
    simp only [List.map_cons, List.nodup_cons] at hnd
    rcases List.mem_cons.mp hm with rfl | hm2
    · simp [lookupList]
    · have hne : e.1 ≠ k := by
        intro he
        exact hnd.1 (by
          rw [he]
          exact List.mem_map.mpr ⟨(k, v), hm2, rfl⟩)
      simp only [lookupList, if_neg hne]
      exact ih hnd.2 hm2

lemma headerLen_sublist_le (xs ys : List (List Nat × Value))
    (h : xs.Sublist ys) : headerLen xs ≤ headerLen ys := by
  induction h with
  | slnil => exact Nat.le_refl 0
  | cons e _ ih =>
    simp only [headerLen]
    omega
  | cons₂ e _ ih =>
    simp only [headerLen]
    omega

lemma valuesLen_sublist_le (xs ys : List (List Nat × Value))
    (h : xs.Sublist ys) : valuesLen xs ≤ valuesLen ys := by
  induction h with
  | slnil => exact Nat.le_refl 0
  | cons e _ ih =>
    simp only [valuesLen]
    omega
  | cons₂ e _ ih =>
    simp only [valuesLen]
    omega

lemma entriesWF_sublist (xs ys : List (List Nat × Value))
    (h : xs.Sublist ys) (hwf : EntriesWF ys) : EntriesWF xs := by
  unfold EntriesWF entriesWF at hwf ⊢
  simp only [Bool.and_eq_true, List.all_eq_true, decide_eq_true_eq] at hwf ⊢
  refine ⟨⟨?_, ?_⟩, ?_⟩
  · intro e he
    exact hwf.1.1 e (h.mem he)
  · refine pairwise_keysStrictSorted _ ?_
    exact (keysStrictSorted_pairwise _ hwf.1.2).sublist (h.map Prod.fst)
  · have h1 := headerLen_sublist_le xs ys h
    have h2 := valuesLen_sublist_le xs ys h
    omega
lemma encodeMap_drop_header (es pre suf : List (List Nat × Value))
    (h : es = pre ++ suf) :
    (encodeMap es).drop (headerLen pre) =
      hdr suf (headerLen es + valuesLen pre) ++ valsBytes es := by
  subst h
  rw [encodeMap_eq, hdr_append, List.append_assoc]
  have hlen : headerLen pre = (hdr pre (headerLen (pre ++ suf))).length :=
    (hdr_length pre _).symm
  rw [hlen, List.drop_left]

lemma encodeMap_drop_value (es pre : List (List Nat × Value))
    (e : List Nat × Value) (post : List (List Nat × Value))
    (h : es = pre ++ e :: post) :
    (encodeMap es).drop (headerLen es + valuesLen pre) =
      encBytes e.2 ++ valsBytes post := by
  subst h
  rw [encodeMap_eq]
  have h1 : headerLen (pre ++ e :: post) + valuesLen pre =
      (hdr (pre ++ e :: post) (headerLen (pre ++ e :: post))).length +
        valuesLen pre := by rw [hdr_length]
  rw [h1, List.drop_append]
  rw [valsBytes_append]
  have h2 : valuesLen pre = (valsBytes pre).length := (valsBytes_length pre).symm
  rw [h2, List.drop_left]
  rfl

lemma drop_two_u16le (n : Nat) (z : List Nat) : (u16le n ++ z).drop 2 = z := rfl

lemma hdrOne_pair (k : List Nat) (v : Value) (vo : Nat) :
    hdrOne (k, v) vo = u16le k.length ++ k ++ [encTag v] ++
      (if encTag v ≠ TypeNil then u32le vo else []) := rfl

/-- Parsing one entry header found at offset `off` of a buffer: the stored
key length, key bytes, tag byte, and (for non-`Nil` tags) value offset are
read back. -/
lemma parse_entry (bm : List Nat) (off vo : Nat) (k : List Nat) (v : Value)
    (tail : List Nat) (hd : bm.drop off = hdrOne (k, v) vo ++ tail) :
    readU16at bm off = k.length % 65536 ∧
    ((bm.drop (off + SizeKeyLen)).take k.length = k) ∧
    byteAt bm (off + SizeKeyLen + k.length) = encTag v ∧
    (encTag v ≠ TypeNil →
      readU32at bm (off + SizeKeyLen + k.length + SizeValueType) =
        vo % 4294967296) := by
  rw [hdrOne_pair] at hd
  refine ⟨?_, ?_, ?_, ?_⟩
  · rw [readU16at_drop, hd]
    rw [List.append_assoc, List.append_assoc, List.append_assoc]
    exact readU16_u16le k.length _
  · show (bm.drop (off + 2)).take k.length = k
    rw [← List.drop_drop, hd]
    have hshape : (u16le k.length ++ k ++ [encTag v] ++
        (if encTag v ≠ TypeNil then u32le vo else [])) ++ tail =
        u16le k.length ++ (k ++ (([encTag v] ++
          (if encTag v ≠ TypeNil then u32le vo else [])) ++ tail)) := by
      simp only [List.append_assoc]
    rw [hshape, drop_two_u16le]
    exact List.take_left k _
  · have harith : off + SizeKeyLen + k.length =
        off + (SizeKeyLen + k.length) := by omega
    rw [harith, ← byteAt_drop, hd]
    have hshape : (u16le k.length ++ k ++ [encTag v] ++
        (if encTag v ≠ TypeNil then u32le vo else [])) ++ tail =
        (u16le k.length ++ k) ++ ([encTag v] ++
          ((if encTag v ≠ TypeNil then u32le vo else []) ++ tail)) := by
      simp only [List.append_assoc]
    rw [hshape]
    have hlen : SizeKeyLen + k.length = (u16le k.length ++ k).length := by
      rw [List.length_append, u16le_length]
      rfl
    rw [hlen]
    have hb := byteAt_append_right (u16le k.length ++ k)
      ([encTag v] ++ ((if encTag v ≠ TypeNil then u32le vo else []) ++ tail)) 0
    rw [Nat.add_zero] at hb
    rw [hb]
    rfl
  · intro ht
    have harith : off + SizeKeyLen + k.length + SizeValueType =
        off + (SizeKeyLen + k.length + SizeValueType) := by omega
    rw [harith, readU32at_drop, ← List.drop_drop, hd, if_pos ht]
    have hshape : (u16le k.length ++ k ++ [encTag v] ++ u32le vo) ++ tail =
        (u16le k.length ++ k ++ [encTag v]) ++ (u32le vo ++ tail) := by
      simp only [List.append_assoc]
    rw [hshape]
    have hlen : SizeKeyLen + k.length + SizeValueType =
        (u16le k.length ++ k ++ [encTag v]).length := by
      simp only [List.length_append, u16le_length, List.length_cons,
        List.length_nil]
      rfl
    rw [hlen, List.drop_left]
    exact readU32_u32le vo tail
/-- Whether some entry of the list has a non-`Nil` tag (drives the
`firstValueOffset` sentinel). -/
def anyNonNil (es : List (List Nat × Value)) : Bool :=
  es.any (fun e => decide (encTag e.2 ≠ TypeNil))

/-- The value of the scan variable `firstValueOffset` after the entries of
`pre` have been visited, in a buffer for `es`: still 0 while only `Nil`
entries were seen, otherwise the header length (the first non-`Nil` entry's
stored offset). -/
def fvoAfter (pre es : List (List Nat × Value)) : Nat :=
  if anyNonNil pre then headerLen es else 0

lemma anyNonNil_false_iff (es : List (List Nat × Value)) :
    anyNonNil es = false ↔ valuesLen es = 0 := by
  induction es with
  | nil => simp [anyNonNil, valuesLen]
  | cons e r ih =>
    simp only [anyNonNil, List.any_cons, Bool.or_eq_false_iff,
      decide_eq_false_iff_not, Decidable.not_not, valuesLen] at *
    constructor
    · rintro ⟨h1, h2⟩
      have h3 : encodedLength e.2 = 0 := by
        rcases (encTag_eq_zero_iff e.2).mp h1 with h4 | h4 <;> rw [h4] <;> rfl
      have h5 := ih.mp h2
      omega
    · intro h
      have h1 : encodedLength e.2 = 0 := by omega
      have h2 : valuesLen r = 0 := by omega
      refine ⟨?_, ih.mpr h2⟩
      rcases (encodedLength_eq_zero_iff e.2).mp h1 with h4 | h4 <;> rw [h4] <;>
        rfl

lemma anyNonNil_concat (pre : List (List Nat × Value))
    (e : List Nat × Value) :
    anyNonNil (pre ++ [e]) =
      (anyNonNil pre || decide (encTag e.2 ≠ TypeNil)) := by
  simp [anyNonNil]

lemma headerLen_concat (pre : List (List Nat × Value))
    (e : List Nat × Value) :
    headerLen (pre ++ [e]) = headerLen pre + entryHeaderLen e := by
  rw [headerLen_append]
  simp [headerLen]

lemma valuesLen_concat (pre : List (List Nat × Value))
    (e : List Nat × Value) :
    valuesLen (pre ++ [e]) = valuesLen pre + encodedLength e.2 := by
  rw [valuesLen_append]
  simp [valuesLen]

lemma entryHeaderLen_of_nil_tag (k : List Nat) (v : Value)
    (h : encTag v = TypeNil) :
    entryHeaderLen (k, v) = SizeKeyLen + k.length + SizeValueType := by
  unfold entryHeaderLen
  have h2 : ¬encodedLength v > 0 := by
    show ¬0 < encodedLength v
    rw [encodedLength_pos_iff_tag]
    simp [h]
  rw [if_neg h2]
  show k.length + 2 + 1 + 0 = 2 + k.length + 1
  omega

lemma entryHeaderLen_of_pos_tag (k : List Nat) (v : Value)
    (h : encTag v ≠ TypeNil) :
    entryHeaderLen (k, v) =
      SizeKeyLen + k.length + SizeValueType + SizeValueOffset := by
  unfold entryHeaderLen
  rw [if_pos ((encodedLength_pos_iff_tag v).mpr h)]
  show k.length + 2 + 1 + 4 = 2 + k.length + 1 + 4
  omega

lemma headerLen_lt_of_ne (es pre suf : List (List Nat × Value))
    (h : es = pre ++ suf) (hne : suf ≠ []) :
    headerLen pre < headerLen es := by
  subst h
  rw [headerLen_append]
  rcases suf with _ | ⟨e, r⟩
  · exact absurd rfl hne
  · have := entryHeaderLen_ge e
    simp only [headerLen]
    omega

lemma headerLen_le_of_split (es pre suf : List (List Nat × Value))
    (h : es = pre ++ suf) : headerLen pre ≤ headerLen es := by
  subst h
  rw [headerLen_append]
  omega

lemma valuesLen_le_of_split (es pre suf : List (List Nat × Value))
    (h : es = pre ++ suf) : valuesLen pre ≤ valuesLen es := by
  subst h
  rw [valuesLen_append]
  omega

lemma headerLen_pos_of_ne (es : List (List Nat × Value)) (h : es ≠ []) :
    0 < headerLen es := by
  rcases es with _ | ⟨e, r⟩
  · exact absurd rfl h
  · have := entryHeaderLen_ge e
    simp only [headerLen]
    omega
/-- Everything a scan reads at the header entry of `(k, v)` when the buffer
is `encodeMap es` and the entries of `pre` precede it: stored key length, key
bytes, tag, stored value offset (exact, thanks to the size bound), and the
bytes found at that offset. -/
lemma entry_facts (es pre : List (List Nat × Value)) (k : List Nat)
    (v : Value) (rest : List (List Nat × Value)) (hwf : EntriesWF es)
    (h : es = pre ++ (k, v) :: rest) :
    readU16at (encodeMap es) (headerLen pre) = k.length ∧
    ((encodeMap es).drop (headerLen pre + SizeKeyLen)).take k.length = k ∧
    byteAt (encodeMap es) (headerLen pre + SizeKeyLen + k.length) = encTag v ∧
    (encTag v ≠ TypeNil →
      readU32at (encodeMap es)
          (headerLen pre + SizeKeyLen + k.length + SizeValueType) =
        headerLen es + valuesLen pre) ∧
    (encodeMap es).drop (headerLen es + valuesLen pre) =
      encBytes v ++ valsBytes rest := by
  have hmem : (k, v) ∈ es := by
    rw [h]
    exact List.mem_append.mpr (Or.inr (List.mem_cons_self _ _))
  obtain ⟨hkWF, _⟩ := entriesWF_mem es hwf _ hmem
  have hklen : k.length < 65536 := by
    unfold keyWF at hkWF
    simp only [Bool.and_eq_true, decide_eq_true_eq] at hkWF
    exact hkWF.1
  have hd0 := encodeMap_drop_header es pre ((k, v) :: rest) h
  have hd : (encodeMap es).drop (headerLen pre) =
      hdrOne (k, v) (headerLen es + valuesLen pre) ++
        (hdr rest (headerLen es + valuesLen pre + (encBytes v).length) ++
          valsBytes es) := by
    rw [hd0]
    show hdrOne (k, v) _ ++
        hdr rest (headerLen es + valuesLen pre + (encBytes v).length) ++
        valsBytes es = _
    rw [List.append_assoc]
  obtain ⟨p1, p2, p3, p4⟩ := parse_entry (encodeMap es) (headerLen pre)
    (headerLen es + valuesLen pre) k v _ hd
  have hvo_lt : headerLen es + valuesLen pre < 4294967296 := by
    have h1 := entriesWF_size es hwf
    have h2 := valuesLen_le_of_split es pre ((k, v) :: rest) h
    omega
  refine ⟨?_, p2, p3, ?_, ?_⟩
  · rw [p1, Nat.mod_eq_of_lt hklen]
  · intro ht
    rw [p4 ht, Nat.mod_eq_of_lt hvo_lt]
  · exact encodeMap_drop_value es pre (k, v) rest h

lemma getLoop_spec (es : List (List Nat × Value)) (hwf : EntriesWF es)
    (target : List Nat) :
    ∀ suf pre fuel, es = pre ++ suf → (suf = [] → valuesLen es = 0) →
    suf.length + 1 ≤ fuel →
    getLoop (encodeMap es) target fuel (headerLen pre) (fvoAfter pre es) =
      lookupList suf target
  | [], pre, fuel, hsplit, hedge, hfuel => by
    rcases fuel with _ | f
    · omega
    · have hpre : pre = es := by rw [hsplit, List.append_nil]
      have hlen : (encodeMap es).length = headerLen es := by
        rw [encodeMap_length, hedge rfl]
        omega
      have hge : headerLen pre ≥ (encodeMap es).length := by
        rw [hlen, hpre]
      show getLoop (encodeMap es) target (f + 1) (headerLen pre)
          (fvoAfter pre es) = Value.nil
      simp only [getLoop]
      rw [if_pos hge]
  | (k, v) :: rest, pre, fuel, hsplit, hedge, hfuel => by
    rcases fuel with _ | f
    · simp at hfuel
    · have hmem : (k, v) ∈ es := by
        rw [hsplit]
        exact List.mem_append.mpr (Or.inr (List.mem_cons_self _ _))
      obtain ⟨_, hvWF⟩ := entriesWF_mem es hwf _ hmem
      obtain ⟨f1, f2, f3, f4, f5⟩ := entry_facts es pre k v rest hwf hsplit
      have hesne : es ≠ [] := by
        rw [hsplit]
        simp
      have hPlt : headerLen pre < (encodeMap es).length := by
        have h1 := headerLen_lt_of_ne es pre ((k, v) :: rest) hsplit (by simp)
        rw [encodeMap_length]
        omega
      have hsplit2 : es = (pre ++ [(k, v)]) ++ rest := by
        rw [hsplit, List.append_assoc]
        rfl
      have hH : headerLen es = headerLen (pre ++ [(k, v)]) + headerLen rest :=
        by rw [hsplit2, headerLen_append]
      have hHpos : 0 < headerLen es := headerLen_pos_of_ne es hesne
      show getLoop (encodeMap es) target (f + 1) (headerLen pre)
        (fvoAfter pre es) = lookupList ((k, v) :: rest) target
      simp only [getLoop]
      rw [if_neg (by omega : ¬headerLen pre ≥ (encodeMap es).length)]
      rw [f1, f2, f3]
      by_cases htag : encTag v = TypeNil
      · rw [if_pos htag]
        have hvnil : v = Value.nil := tag_nil_value v hvWF htag
        have hko : headerLen pre + SizeKeyLen + k.length + SizeValueType =
            headerLen (pre ++ [(k, v)]) := by
          rw [headerLen_concat, entryHeaderLen_of_nil_tag k v htag]
          omega
        by_cases hk : k = target
        · rw [if_pos hk]
          show Value.nil = lookupList ((k, v) :: rest) target
          simp only [lookupList]
          rw [if_pos (show (k, v).1 = target from hk), hvnil]
        · rw [if_neg hk]
          have hrhs : lookupList ((k, v) :: rest) target =
              lookupList rest target := by
            simp only [lookupList]
            rw [if_neg (show ¬(k, v).1 = target from hk)]
          rw [hrhs]
          by_cases hany : anyNonNil pre = true
          · have hfvo : fvoAfter pre es = headerLen es := by
              simp [fvoAfter, hany]
            rw [hfvo]
            rcases hrest : rest with _ | ⟨r0, rtail⟩
            · have hcond : headerLen es > 0 ∧
                  headerLen pre + SizeKeyLen + k.length + SizeValueType ≥
                    headerLen es := by
                subst hrest
                constructor
                · exact hHpos
                · rw [hko, hH]
                  simp [headerLen]
              rw [if_pos hcond]
              rfl
            · have hcond : ¬(headerLen es > 0 ∧
                  headerLen pre + SizeKeyLen + k.length + SizeValueType ≥
                    headerLen es) := by
                intro hc
                have h3 := entryHeaderLen_ge r0
                rw [hko] at hc
                rw [hH, hrest] at hc
                simp only [headerLen] at hc
                omega
              rw [if_neg hcond, hko]
              have hst : fvoAfter (pre ++ [(k, v)]) es = headerLen es := by
                simp [fvoAfter, anyNonNil_concat, hany]
              rw [← hrest, ← hst]
              refine getLoop_spec es hwf target rest (pre ++ [(k, v)]) f
                hsplit2 ?_ ?_
              · intro hre
                rw [hrest] at hre
                exact absurd hre (by simp)
              · have : rest.length = rtail.length + 1 := by rw [hrest]; rfl
                simp only [List.length_cons] at hfuel
                omega
          · have hany2 : anyNonNil pre = false := by
              simp only [Bool.not_eq_true] at hany
              exact hany
            have hfvo : fvoAfter pre es = 0 := by
              simp [fvoAfter, hany2]
            rw [hfvo]
            rw [if_neg (by omega :
              ¬((0 : Nat) > 0 ∧ headerLen pre + SizeKeyLen + k.length +
                SizeValueType ≥ 0))]
            rw [hko]
            have hst : fvoAfter (pre ++ [(k, v)]) es = 0 := by
              simp [fvoAfter, anyNonNil_concat, hany2, htag]
            rw [← hst]
            refine getLoop_spec es hwf target rest (pre ++ [(k, v)]) f
              hsplit2 ?_ ?_
            · intro hre
              rw [← anyNonNil_false_iff]
              rw [hsplit2, hre, List.append_nil, anyNonNil_concat, hany2]
              simp [htag]
            · simp only [List.length_cons] at hfuel
              omega
      · rw [if_neg htag]
        rw [f4 htag]
        have hko2 : headerLen pre + SizeKeyLen + k.length + SizeValueType +
            SizeValueOffset = headerLen (pre ++ [(k, v)]) := by
          rw [headerLen_concat, entryHeaderLen_of_pos_tag k v htag]
          omega
        have hfvo2 : (if fvoAfter pre es = 0 then
            headerLen es + valuesLen pre else fvoAfter pre es) =
            headerLen es := by
          by_cases hany : anyNonNil pre = true
          · have : fvoAfter pre es = headerLen es := by simp [fvoAfter, hany]
            rw [this, if_neg (by omega)]
          · have hany2 : anyNonNil pre = false := by
              simp only [Bool.not_eq_true] at hany
              exact hany
            have h0 : fvoAfter pre es = 0 := by simp [fvoAfter, hany2]
            have hvl : valuesLen pre = 0 := by
              have hp := anyNonNil_false_iff pre
              exact hp.mp hany2
            rw [h0, if_pos rfl, hvl]
            omega
        rw [hfvo2]
        by_cases hk : k = target
        · rw [if_pos hk]
          rw [f5]
          have hdec := decode_encode v hvWF (valsBytes rest)
          rw [hdec]
          show v = lookupList ((k, v) :: rest) target
          simp only [lookupList]
          rw [if_pos (show (k, v).1 = target from hk)]
        · rw [if_neg hk]
          have hrhs : lookupList ((k, v) :: rest) target =
              lookupList rest target := by
            simp only [lookupList]
            rw [if_neg (show ¬(k, v).1 = target from hk)]
          rw [hrhs]
          rcases hrest : rest with _ | ⟨r0, rtail⟩
          · have hcond : headerLen es > 0 ∧
                headerLen pre + SizeKeyLen + k.length + SizeValueType +
                  SizeValueOffset ≥ headerLen es := by
              subst hrest
              refine ⟨hHpos, ?_⟩
              rw [hko2, hH]
              simp [headerLen]
            rw [if_pos hcond]
            rfl
          · have hcond : ¬(headerLen es > 0 ∧
                headerLen pre + SizeKeyLen + k.length + SizeValueType +
                  SizeValueOffset ≥ headerLen es) := by
              intro hc
              have h3 := entryHeaderLen_ge r0
              rw [hko2] at hc
              rw [hH, hrest] at hc
              simp only [headerLen] at hc
              omega
            rw [if_neg hcond, hko2]
            have hst : fvoAfter (pre ++ [(k, v)]) es = headerLen es := by
              simp [fvoAfter, anyNonNil_concat, htag]
            rw [← hrest, ← hst]
            refine getLoop_spec es hwf target rest (pre ++ [(k, v)]) f
              hsplit2 ?_ ?_
            · intro hre
              rw [hrest] at hre
              exact absurd hre (by simp)
            · simp only [List.length_cons] at hfuel
              omega
lemma iterLoop_spec (es : List (List Nat × Value)) (hwf : EntriesWF es) :
    ∀ suf pre fuel, es = pre ++ suf → (suf = [] → valuesLen es = 0) →
    suf.length + 1 ≤ fuel →
    iterLoop (encodeMap es) fuel (headerLen pre) (fvoAfter pre es) = suf
  | [], pre, fuel, hsplit, hedge, hfuel => by
    rcases fuel with _ | f
    · omega
    · have hpre : pre = es := by rw [hsplit, List.append_nil]
      have hge : headerLen pre ≥ (encodeMap es).length := by
        rw [encodeMap_length, hedge rfl, hpre]
        omega
      show iterLoop (encodeMap es) (f + 1) (headerLen pre)
          (fvoAfter pre es) = []
      simp only [iterLoop]
      rw [if_pos hge]
  | (k, v) :: rest, pre, fuel, hsplit, hedge, hfuel => by
    rcases fuel with _ | f
    · simp at hfuel
    · have hmem : (k, v) ∈ es := by
        rw [hsplit]
        exact List.mem_append.mpr (Or.inr (List.mem_cons_self _ _))
      obtain ⟨_, hvWF⟩ := entriesWF_mem es hwf _ hmem
      obtain ⟨f1, f2, f3, f4, f5⟩ := entry_facts es pre k v rest hwf hsplit
      have hesne : es ≠ [] := by
        rw [hsplit]
        simp
      have hPlt : headerLen pre < (encodeMap es).length := by
        have h1 := headerLen_lt_of_ne es pre ((k, v) :: rest) hsplit (by simp)
        rw [encodeMap_length]
        omega
      have hsplit2 : es = (pre ++ [(k, v)]) ++ rest := by
        rw [hsplit, List.append_assoc]
        rfl
      have hH : headerLen es = headerLen (pre ++ [(k, v)]) + headerLen rest :=
        by rw [hsplit2, headerLen_append]
      have hHpos : 0 < headerLen es := headerLen_pos_of_ne es hesne
      show iterLoop (encodeMap es) (f + 1) (headerLen pre)
        (fvoAfter pre es) = (k, v) :: rest
      simp only [iterLoop]
      rw [if_neg (by omega : ¬headerLen pre ≥ (encodeMap es).length)]
      rw [f1, f2, f3]
      by_cases htag : encTag v = TypeNil
      · rw [if_pos htag]
        have hvnil : v = Value.nil := tag_nil_value v hvWF htag
        have hko : headerLen pre + SizeKeyLen + k.length + SizeValueType =
            headerLen (pre ++ [(k, v)]) := by
          rw [headerLen_concat, entryHeaderLen_of_nil_tag k v htag]
          omega
        rw [← hvnil]
        by_cases hany : anyNonNil pre = true
        · have hfvo : fvoAfter pre es = headerLen es := by
            simp [fvoAfter, hany]
          rw [hfvo]
          rcases hrest : rest with _ | ⟨r0, rtail⟩
          · have hcond : headerLen es > 0 ∧
                headerLen pre + SizeKeyLen + k.length + SizeValueType ≥
                  headerLen es := by
              subst hrest
              refine ⟨hHpos, ?_⟩
              rw [hko, hH]
              simp [headerLen]
            rw [if_pos hcond]
          · have hcond : ¬(headerLen es > 0 ∧
                headerLen pre + SizeKeyLen + k.length + SizeValueType ≥
                  headerLen es) := by
              intro hc
              have h3 := entryHeaderLen_ge r0
              rw [hko] at hc
              rw [hH, hrest] at hc
              simp only [headerLen] at hc
              omega
            rw [if_neg hcond, hko]
            have hst : fvoAfter (pre ++ [(k, v)]) es = headerLen es := by
              simp [fvoAfter, anyNonNil_concat, hany]
            rw [← hrest, ← hst]
            have := iterLoop_spec es hwf rest (pre ++ [(k, v)]) f
              hsplit2 (by
                intro hre
                rw [hrest] at hre
                exact absurd hre (by simp))
              (by
                simp only [List.length_cons] at hfuel
                omega)
            rw [this]
        · have hany2 : anyNonNil pre = false := by
            simp only [Bool.not_eq_true] at hany
            exact hany
          have hfvo : fvoAfter pre es = 0 := by
            simp [fvoAfter, hany2]
          rw [hfvo]
          rw [if_neg (by omega :
            ¬((0 : Nat) > 0 ∧ headerLen pre + SizeKeyLen + k.length +
              SizeValueType ≥ 0))]
          rw [hko]
          have hst : fvoAfter (pre ++ [(k, v)]) es = 0 := by
            simp [fvoAfter, anyNonNil_concat, hany2, htag]
          rw [← hst]
          have := iterLoop_spec es hwf rest (pre ++ [(k, v)]) f
            hsplit2 (by
              intro hre
              rw [← anyNonNil_false_iff]
              rw [hsplit2, hre, List.append_nil, anyNonNil_concat, hany2]
              simp [htag])
            (by
              simp only [List.length_cons] at hfuel
              omega)
          rw [this]
      · rw [if_neg htag]
        rw [f4 htag]
        have hko2 : headerLen pre + SizeKeyLen + k.length + SizeValueType +
            SizeValueOffset = headerLen (pre ++ [(k, v)]) := by
          rw [headerLen_concat, entryHeaderLen_of_pos_tag k v htag]
          omega
        have hfvo2 : (if fvoAfter pre es = 0 then
            headerLen es + valuesLen pre else fvoAfter pre es) =
            headerLen es := by
          by_cases hany : anyNonNil pre = true
          · have : fvoAfter pre es = headerLen es := by simp [fvoAfter, hany]
            rw [this, if_neg (by omega)]
          · have hany2 : anyNonNil pre = false := by
              simp only [Bool.not_eq_true] at hany
              exact hany
            have h0 : fvoAfter pre es = 0 := by simp [fvoAfter, hany2]
            have hvl : valuesLen pre = 0 := (anyNonNil_false_iff pre).mp hany2
            rw [h0, if_pos rfl, hvl]
            omega
        rw [hfvo2, f5]
        have hdec := decode_encode v hvWF (valsBytes rest)
        rw [hdec]
        rcases hrest : rest with _ | ⟨r0, rtail⟩
        · have hcond : headerLen es > 0 ∧
              headerLen pre + SizeKeyLen + k.length + SizeValueType +
                SizeValueOffset ≥ headerLen es := by
            subst hrest
            refine ⟨hHpos, ?_⟩
            rw [hko2, hH]
            simp [headerLen]
          rw [if_pos hcond]
        · have hcond : ¬(headerLen es > 0 ∧
              headerLen pre + SizeKeyLen + k.length + SizeValueType +
                SizeValueOffset ≥ headerLen es) := by
            intro hc
            have h3 := entryHeaderLen_ge r0
            rw [hko2] at hc
            rw [hH, hrest] at hc
            simp only [headerLen] at hc
            omega
          rw [if_neg hcond, hko2]
          have hst : fvoAfter (pre ++ [(k, v)]) es = headerLen es := by
            simp [fvoAfter, anyNonNil_concat, htag]
          rw [← hrest, ← hst]
          have := iterLoop_spec es hwf rest (pre ++ [(k, v)]) f
            hsplit2 (by
              intro hre
              rw [hrest] at hre
              exact absurd hre (by simp))
            (by
              simp only [List.length_cons] at hfuel
              omega)
          rw [this]

/-- `Get` on a well-formed built buffer is exactly association-list lookup. -/
lemma get_encodeMap (es : List (List Nat × Value)) (hwf : EntriesWF es)
    (target : List Nat) :
    Get (encodeMap es) target = lookupList es target := by
  unfold Get
  have h1 : es = [] → valuesLen es = 0 := by
    intro he
    rw [he]
    rfl
  have h2 : es.length + 1 ≤ (encodeMap es).length + 1 := by
    have h3 := length_le_headerLen es
    rw [encodeMap_length]
    omega
  exact getLoop_spec es hwf target es [] ((encodeMap es).length + 1) rfl h1 h2

/-- `Iterate` on a well-formed built buffer visits exactly the entries. -/
lemma iterate_encodeMap (es : List (List Nat × Value)) (hwf : EntriesWF es) :
    Iterate (encodeMap es) = es := by
  unfold Iterate
  have h1 : es = [] → valuesLen es = 0 := by
    intro he
    rw [he]
    rfl
  have h2 : es.length + 1 ≤ (encodeMap es).length + 1 := by
    have h3 := length_le_headerLen es
    rw [encodeMap_length]
    omega
  exact iterLoop_spec es hwf es [] ((encodeMap es).length + 1) rfl h1 h2

/-- `AsMap` on a well-formed built buffer is the entry list itself. -/
lemma asMap_encodeMap (es : List (List Nat × Value)) (hwf : EntriesWF es) :
    AsMap (encodeMap es) = es := iterate_encodeMap es hwf
lemma headerLen_eq_sum (es : List (List Nat × Value)) :
    headerLen es = (es.map entryHeaderLen).sum := by
  induction es with
  | nil => rfl
  | cons e r ih => simp [headerLen, ih]

lemma headerLen_perm (es es' : List (List Nat × Value))
    (hp : List.Perm es' es) : headerLen es' = headerLen es := by
  rw [headerLen_eq_sum, headerLen_eq_sum]
  exact (hp.map entryHeaderLen).sum_eq

lemma insertionSort_of_sorted (ks ks' : List (List Nat))
    (hs : keysStrictSorted ks = true) (hp : List.Perm ks' ks) :
    List.insertionSort keyLe ks' = ks :=
  List.eq_of_perm_of_sorted ((List.perm_insertionSort keyLe ks').trans hp)
    (List.sorted_insertionSort keyLe ks') (keysStrictSorted_sorted ks hs)

lemma lookup_perm_eq (es es' : List (List Nat × Value)) (hwf : EntriesWF es)
    (hp : List.Perm es' es) (k : List Nat) (v : Value) (hm : (k, v) ∈ es) :
    lookupList es' k = v := by
  have hnd : (es.map Prod.fst).Nodup :=
    keysStrictSorted_nodup _ (entriesWF_sorted es hwf)
  have hnd' : (es'.map Prod.fst).Nodup := ((hp.map Prod.fst).nodup_iff).mpr hnd
  exact lookupList_eq_of_mem es' hnd' k v (hp.mem_iff.mpr hm)

lemma map_fst_lookup (es0 : List (List Nat × Value)) (g : List Nat → Value)
    (h : ∀ e ∈ es0, g e.1 = e.2) :
    (es0.map Prod.fst).map (fun k => (k, g k)) = es0 := by
  induction es0 with
  | nil => rfl
  | cons e r ih =>
    simp only [List.map_cons, List.cons.injEq]
    constructor
    · rw [h e (List.mem_cons_self _ _)]
    · exact ih (fun e2 he2 => h e2 (List.mem_cons_of_mem _ he2))

/-- The unsorted Builder path on any enumeration `es'` of the entries, with a
`valueFor` that agrees with them, produces the canonical sorted buffer. -/
lemma build_false_eq (es es' : List (List Nat × Value))
    (vf : List Nat → Value) (hwf : EntriesWF es) (hp : List.Perm es' es)
    (hvf : ∀ e ∈ es, vf e.1 = e.2) :
    Build es' vf false = encodeMap es := by
  unfold Build encodeMap
  have hsort : List.insertionSort keyLe (es'.map Prod.fst) = es.map Prod.fst :=
    insertionSort_of_sorted (es.map Prod.fst) (es'.map Prod.fst)
      (entriesWF_sorted es hwf) (hp.map Prod.fst)
  have hfinal : (List.insertionSort keyLe (es'.map Prod.fst)).map
      (fun k => (k, vf k)) = es := by
    rw [hsort]
    exact map_fst_lookup es vf hvf
  simp only [if_neg (by simp : ¬false = true), if_pos rfl]
  rw [hfinal, headerLen_perm es es' hp]
  rfl

lemma build_true_eq (es : List (List Nat × Value))
    (vf : List Nat → Value) : Build es vf true = encodeMap es := rfl

/-- `New` on any enumeration of the entries yields the canonical buffer. -/
lemma newBM_eq (es es' : List (List Nat × Value)) (hwf : EntriesWF es)
    (hp : List.Perm es' es) : NewBM es' = encodeMap es := by
  unfold NewBM
  refine build_false_eq es es' _ hwf hp ?_
  intro e he
  exact lookup_perm_eq es es' hwf hp e.1 e.2 he
lemma lookupList_not_mem (es : List (List Nat × Value)) (k : List Nat)
    (h : k ∉ es.map Prod.fst) : lookupList es k = Value.nil := by
  induction es with
  | nil => rfl
  | cons e r ih =>
    simp only [List.map_cons, List.mem_cons, not_or] at h
    simp only [lookupList]
    rw [if_neg (fun hc => h.1 hc.symm)]
    exact ih h.2

lemma lookup_perm_all (es es' : List (List Nat × Value)) (hwf : EntriesWF es)
    (hp : List.Perm es' es) (k : List Nat) :
    lookupList es' k = lookupList es k := by
  by_cases hmem : k ∈ es.map Prod.fst
  · obtain ⟨e, he, hek⟩ := List.mem_map.mp hmem
    have he2 : (k, e.2) ∈ es := by
      rw [← hek]
      exact he
    rw [lookup_perm_eq es es' hwf hp k e.2 he2]
    have hnd : (es.map Prod.fst).Nodup :=
      keysStrictSorted_nodup _ (entriesWF_sorted es hwf)
    rw [lookupList_eq_of_mem es hnd k e.2 he2]
  · rw [lookupList_not_mem es k hmem, lookupList_not_mem es' k
      (fun hc => hmem (((hp.map Prod.fst).mem_iff).mp hc))]

lemma zip_map_fst_snd (es : List (List Nat × Value)) :
    (es.map Prod.fst).zip (es.map Prod.snd) = es := by
  induction es with
  | nil => rfl
  | cons e r ih => simp [ih]

/-- Claim C1: for every supported-type map (entries `es` in sorted order,
enumerated in any order `es'`), decoding the built buffer is the identity:
`AsMap (New m)` returns exactly the entries, including `Nil`-valued ones
(which come back as `nil`), and agrees with `m` key by key. -/
theorem claim1_round_trip (es es' : List (List Nat × Value))
    (hwf : EntriesWF es) (hp : List.Perm es' es) :
    AsMap (NewBM es') = es ∧
    ∀ k, lookupList (AsMap (NewBM es')) k = lookupList es' k := by
  have h1 : AsMap (NewBM es') = es := by
    rw [newBM_eq es es' hwf hp, asMap_encodeMap es hwf]
  refine ⟨h1, ?_⟩
  intro k
  rw [h1, lookup_perm_all es es' hwf hp k]

theorem claim1_round_trip_witness :
    EntriesWF [([97], Value.nil), ([98], Value.bool true),
      ([99], Value.uint16 5)] ∧
    List.Perm [([99], Value.uint16 5), ([97], Value.nil),
      ([98], Value.bool true)]
      [([97], Value.nil), ([98], Value.bool true), ([99], Value.uint16 5)] ∧
    (AsMap (NewBM [([99], Value.uint16 5), ([97], Value.nil),
        ([98], Value.bool true)]) =
      [([97], Value.nil), ([98], Value.bool true), ([99], Value.uint16 5)] ∧
      ∀ k, lookupList (AsMap (NewBM [([99], Value.uint16 5), ([97], Value.nil),
        ([98], Value.bool true)])) k =
        lookupList [([99], Value.uint16 5), ([97], Value.nil),
          ([98], Value.bool true)] k) :=
  ⟨by decide, by decide, claim1_round_trip _ _ (by decide) (by decide)⟩

/-- Claim C2: point lookup on a built buffer returns the stored value for
every present key and `nil` for every absent key. -/
theorem claim2_point_lookup (es es' : List (List Nat × Value))
    (hwf : EntriesWF es) (hp : List.Perm es' es) :
    (∀ k v, (k, v) ∈ es → Get (NewBM es') k = v) ∧
    (∀ k2, k2 ∉ es.map Prod.fst → Get (NewBM es') k2 = Value.nil) := by
  have hb : NewBM es' = encodeMap es := newBM_eq es es' hwf hp
  constructor
  · intro k v hm
    rw [hb, get_encodeMap es hwf k]
    have hnd : (es.map Prod.fst).Nodup :=
      keysStrictSorted_nodup _ (entriesWF_sorted es hwf)
    exact lookupList_eq_of_mem es hnd k v hm
  · intro k2 hm
    rw [hb, get_encodeMap es hwf k2]
    exact lookupList_not_mem es k2 hm

theorem claim2_point_lookup_witness :
    EntriesWF [([97], Value.nil), ([98], Value.int16 5)] ∧
    List.Perm [([98], Value.int16 5), ([97], Value.nil)]
      [([97], Value.nil), ([98], Value.int16 5)] ∧
    ((∀ k v, (k, v) ∈ [([97], Value.nil), ([98], Value.int16 5)] →
        Get (NewBM [([98], Value.int16 5), ([97], Value.nil)]) k = v) ∧
      (∀ k2, k2 ∉ [([97], Value.nil), ([98], Value.int16 5)].map Prod.fst →
        Get (NewBM [([98], Value.int16 5), ([97], Value.nil)]) k2 =
          Value.nil)) :=
  ⟨by decide, by decide, claim2_point_lookup _ _ (by decide) (by decide)⟩

/-- Claim C6 counterexample: encoding a string of 65536 bytes does not fail —
there is no `ValueTooLarge` error anywhere in the code.  `encodeValue` happily
returns the `TypeString` tag, and the stored 2-byte length prefix silently
wraps to 0 even though the string has 65536 bytes. -/
theorem claim6_counterexample :
    (encodeValue (Value.str (List.replicate 65536 0))).1 = TypeString ∧
    readU16 (encodeValue (Value.str (List.replicate 65536 0))).2 = 0 ∧
    (List.replicate 65536 (0 : Nat)).length = 65536 := by
  refine ⟨rfl, ?_, by rw [List.length_replicate]⟩
  show readU16 (u16le (List.replicate 65536 (0 : Nat)).length ++
    List.replicate 65536 0) = 0
  rw [List.length_replicate, readU16_u16le]

/-- Claim C6 amended: encoding a string longer than 65535 bytes does not
fail; `encodeValue` returns the `TypeString` tag and writes a 2-byte length
prefix that silently wraps to `length % 65536`, so the stored length always
differs from the real one. -/
theorem claim6_string_wraps (s : List Nat) (h : 65536 ≤ s.length) :
    (encodeValue (Value.str s)).1 = TypeString ∧
    readU16 (encodeValue (Value.str s)).2 = s.length % 65536 ∧
    s.length % 65536 ≠ s.length := by
  refine ⟨rfl, ?_, ?_⟩
  · show readU16 (u16le s.length ++ s) = s.length % 65536
    exact readU16_u16le s.length s
  · omega

theorem claim6_string_wraps_witness :
    65536 ≤ (List.replicate 65536 (0 : Nat)).length ∧
    ((encodeValue (Value.str (List.replicate 65536 0))).1 = TypeString ∧
      readU16 (encodeValue (Value.str (List.replicate 65536 0))).2 =
        (List.replicate 65536 (0 : Nat)).length % 65536 ∧
      (List.replicate 65536 (0 : Nat)).length % 65536 ≠
        (List.replicate 65536 (0 : Nat)).length) :=
  ⟨by simp only [List.length_replicate, le_refl],
    claim6_string_wraps _ (by simp only [List.length_replicate, le_refl])⟩

/-- Claim C7: building from the pre-sorted entry point on the sorted pairs
and from the unsorted entry point (`New`) on any permutation of them gives
byte-for-byte identical buffers. -/
theorem claim7_builder_equivalence (es es' : List (List Nat × Value))
    (hwf : EntriesWF es) (hp : List.Perm es' es) :
    FromSortedKeysAndValues (es.map Prod.fst) (es.map Prod.snd) = NewBM es' := by
  unfold FromSortedKeysAndValues
  rw [zip_map_fst_snd, build_true_eq, newBM_eq es es' hwf hp]

theorem claim7_builder_equivalence_witness :
    EntriesWF [([97], Value.bool true), ([98], Value.str [104, 105])] ∧
    List.Perm [([98], Value.str [104, 105]), ([97], Value.bool true)]
      [([97], Value.bool true), ([98], Value.str [104, 105])] ∧
    FromSortedKeysAndValues
        ([([97], Value.bool true), ([98], Value.str [104, 105])].map Prod.fst)
        ([([97], Value.bool true), ([98], Value.str [104, 105])].map Prod.snd) =
      NewBM [([98], Value.str [104, 105]), ([97], Value.bool true)] :=
  ⟨by decide, by decide, claim7_builder_equivalence _ _ (by decide) (by decide)⟩

/-- Claim C8: for every value, `encodedLength` agrees with the byte count
written by `encodeValue`, and it returns 0 exactly for values encoded with
the `Nil` tag (including unsupported values). -/
theorem claim8_encoded_length_agrees (v : Value) :
    encodedLength v = (encodeValue v).2.length ∧
    (encodedLength v = 0 ↔ (encodeValue v).1 = TypeNil) :=
  ⟨(encBytes_length v).symm,
    (encodedLength_eq_zero_iff v).trans (encTag_eq_zero_iff v).symm⟩

/-- Claim C9: building from the empty map yields a zero-length buffer, and
`Get`, `Iterate` and `AsMap` on a zero-length buffer behave as on a map with
no matching key: `nil`, no callback invocations, and the empty map. -/
theorem claim9_empty_map (vf : List Nat → Value) (k : List Nat) :
    Build [] vf false = [] ∧ Get [] k = Value.nil ∧
    Iterate ([] : List Nat) = [] ∧ AsMap ([] : List Nat) = [] :=
  ⟨rfl, rfl, rfl, rfl⟩
/-- The list-level view of the evolving `keyBytes` slice: Go `nil` and the
never-reached empty slice both collapse to `[]`. -/
def optOf : List (List Nat) → Option (List (List Nat))
  | [] => none
  | l => some l

/-- Pure specification of `advance`: drop requested keys strictly below the
candidate; report whether the first remaining key equals it. -/
def advanceSpec (candidate : List Nat) : List (List Nat) →
    Bool × List (List Nat)
  | [] => (false, [])
  | k :: ks =>
    if bytesCompare candidate k == Ordering.gt then advanceSpec candidate ks
    else (bytesCompare candidate k == Ordering.eq, k :: ks)

lemma advGo_spec (cand : List Nat) : ∀ (k : List Nat) (ks : List (List Nat)),
    advGo cand k ks =
      ((advanceSpec cand (k :: ks)).1, optOf (advanceSpec cand (k :: ks)).2)
  | k, [] => by
    by_cases h : bytesCompare cand k == Ordering.gt
    · simp only [advGo, advanceSpec, if_pos h]
      rfl
    · simp only [advGo, advanceSpec, if_neg h]
      rfl
  | k, k2 :: ks2 => by
    by_cases h : bytesCompare cand k == Ordering.gt
    · simp only [advGo, advanceSpec, if_pos h]
      exact advGo_spec cand k2 ks2
    · simp only [advGo, advanceSpec, if_neg h]
      rfl

lemma advanceM_optOf (ks : List (List Nat)) (cand : List Nat) :
    advanceM (optOf ks) cand =
      some ((advanceSpec cand ks).1, optOf (advanceSpec cand ks).2) := by
  cases ks with
  | nil => rfl
  | cons k ks2 =>
    show advanceM (some (k :: ks2)) cand = _
    simp only [advanceM]
    rw [advGo_spec cand k ks2]

lemma kbsEmpty_optOf (ks : List (List Nat)) :
    kbsEmpty (optOf ks) = ks.isEmpty := by
  cases ks <;> rfl

/-- Header chunk (through the tag byte) and raw value bytes of one entry, as
the `doSplit` accumulators store them. -/
def toAcc (e : List Nat × Value) : List Nat × List Nat :=
  (u16le e.1.length ++ e.1 ++ [encTag e.2], encBytes e.2)

/-- One unfolding of the `doSplit` scan once `advance` has answered. -/
lemma doSplitLoop_step (bm : List Nat) (inclO : Bool) (f keyOffset fvo : Nat)
    (kbs : Option (List (List Nat)))
    (accM accO : List (List Nat × List Nat)) (m : Bool)
    (kbs2 : Option (List (List Nat)))
    (hlt : ¬keyOffset ≥ bm.length)
    (hadv : advanceM kbs
      ((bm.drop (keyOffset + SizeKeyLen)).take (readU16at bm keyOffset)) =
      some (m, kbs2)) :
    doSplitLoop bm inclO (f + 1) keyOffset fvo kbs accM accO =
      (if byteAt bm (keyOffset + SizeKeyLen + readU16at bm keyOffset) =
          TypeNil then
        if keyOffset + SizeKeyLen + readU16at bm keyOffset + SizeValueType ≥
            fvo then some (accM, accO)
        else if ¬inclO ∧ kbsEmpty kbs2 then some (accM, accO)
        else doSplitLoop bm inclO f
          (keyOffset + SizeKeyLen + readU16at bm keyOffset + SizeValueType)
          fvo kbs2 accM accO
      else
        if keyOffset + SizeKeyLen + readU16at bm keyOffset + SizeValueType +
            SizeValueOffset ≥
            (if fvo = 0 then
              readU32at bm (keyOffset + SizeKeyLen +
                readU16at bm keyOffset + SizeValueType)
             else fvo) then
          some
            ((if m then accM ++
                [((bm.drop keyOffset).take
                    (keyOffset + SizeKeyLen + readU16at bm keyOffset +
                      SizeValueType - keyOffset),
                  (bm.drop (readU32at bm (keyOffset + SizeKeyLen +
                      readU16at bm keyOffset + SizeValueType))).take
                    (lengthOfAt bm
                      (readU32at bm (keyOffset + SizeKeyLen +
                        readU16at bm keyOffset + SizeValueType))
                      (byteAt bm (keyOffset + SizeKeyLen +
                        readU16at bm keyOffset))))]
              else accM),
             (if ¬m ∧ inclO then accO ++
                [((bm.drop keyOffset).take
                    (keyOffset + SizeKeyLen + readU16at bm keyOffset +
                      SizeValueType - keyOffset),
                  (bm.drop (readU32at bm (keyOffset + SizeKeyLen +
                      readU16at bm keyOffset + SizeValueType))).take
                    (lengthOfAt bm
                      (readU32at bm (keyOffset + SizeKeyLen +
                        readU16at bm keyOffset + SizeValueType))
                      (byteAt bm (keyOffset + SizeKeyLen +
                        readU16at bm keyOffset))))]
              else accO))
        else if ¬inclO ∧ kbsEmpty kbs2 then
          some
            ((if m then accM ++
                [((bm.drop keyOffset).take
                    (keyOffset + SizeKeyLen + readU16at bm keyOffset +
                      SizeValueType - keyOffset),
                  (bm.drop (readU32at bm (keyOffset + SizeKeyLen +
                      readU16at bm keyOffset + SizeValueType))).take
                    (lengthOfAt bm
                      (readU32at bm (keyOffset + SizeKeyLen +
                        readU16at bm keyOffset + SizeValueType))
                      (byteAt bm (keyOffset + SizeKeyLen +
                        readU16at bm keyOffset))))]
              else accM),
             (if ¬m ∧ inclO then accO ++
                [((bm.drop keyOffset).take
                    (keyOffset + SizeKeyLen + readU16at bm keyOffset +
                      SizeValueType - keyOffset),
                  (bm.drop (readU32at bm (keyOffset + SizeKeyLen +
                      readU16at bm keyOffset + SizeValueType))).take
                    (lengthOfAt bm
                      (readU32at bm (keyOffset + SizeKeyLen +
                        readU16at bm keyOffset + SizeValueType))
                      (byteAt bm (keyOffset + SizeKeyLen +
                        readU16at bm keyOffset))))]
              else accO))
        else
          doSplitLoop bm inclO f
            (keyOffset + SizeKeyLen + readU16at bm keyOffset +
              SizeValueType + SizeValueOffset)
            (if fvo = 0 then
              readU32at bm (keyOffset + SizeKeyLen +
                readU16at bm keyOffset + SizeValueType)
             else fvo)
            kbs2
            (if m then accM ++
                [((bm.drop keyOffset).take
                    (keyOffset + SizeKeyLen + readU16at bm keyOffset +
                      SizeValueType - keyOffset),
                  (bm.drop (readU32at bm (keyOffset + SizeKeyLen +
                      readU16at bm keyOffset + SizeValueType))).take
                    (lengthOfAt bm
                      (readU32at bm (keyOffset + SizeKeyLen +
                        readU16at bm keyOffset + SizeValueType))
                      (byteAt bm (keyOffset + SizeKeyLen +
                        readU16at bm keyOffset))))]
              else accM)
            (if ¬m ∧ inclO then accO ++
                [((bm.drop keyOffset).take
                    (keyOffset + SizeKeyLen + readU16at bm keyOffset +
                      SizeValueType - keyOffset),
                  (bm.drop (readU32at bm (keyOffset + SizeKeyLen +
                      readU16at bm keyOffset + SizeValueType))).take
                    (lengthOfAt bm
                      (readU32at bm (keyOffset + SizeKeyLen +
                        readU16at bm keyOffset + SizeValueType))
                      (byteAt bm (keyOffset + SizeKeyLen +
                        readU16at bm keyOffset))))]
              else accO)) := by
  simp only [doSplitLoop]
  rw [if_neg hlt, hadv]
/-- Reference selection: which entries the `doSplit` scan copies into the
matched and omitted accumulators, given the (list-level) requested-key state
and whether a non-`Nil` entry has been seen.  Mirrors the loop's break
conditions: an unset `firstValueOffset` stops the scan after any `Nil` entry,
a set one stops it after the last entry, and an exhausted requested-key list
stops `Slice` (`includeOmitted = false`). -/
def selLoop (includeOmitted : Bool) :
    List (List Nat) → Bool → List (List Nat × Value) →
    List (List Nat × Value) × List (List Nat × Value)
  | _, _, [] => ([], [])
  | ks, fvoSet, (k, v) :: rest =>
    let a := advanceSpec k ks
    if encTag v = TypeNil then
      if ¬fvoSet then ([], [])
      else if rest = [] then ([], [])
      else if ¬includeOmitted ∧ a.2 = [] then ([], [])
      else selLoop includeOmitted a.2 fvoSet rest
    else
      let tail :=
        if rest = [] then ([], [])
        else if ¬includeOmitted ∧ a.2 = [] then ([], [])
        else selLoop includeOmitted a.2 true rest
      if a.1 then ((k, v) :: tail.1, tail.2)
      else if includeOmitted then (tail.1, (k, v) :: tail.2)
      else tail
lemma entry_chunk (es pre : List (List Nat × Value)) (k : List Nat)
    (v : Value) (rest : List (List Nat × Value))
    (h : es = pre ++ (k, v) :: rest) :
    ((encodeMap es).drop (headerLen pre)).take
        (SizeKeyLen + k.length + SizeValueType) =
      u16le k.length ++ k ++ [encTag v] := by
  have hd0 := encodeMap_drop_header es pre ((k, v) :: rest) h
  have hd : (encodeMap es).drop (headerLen pre) =
      (u16le k.length ++ k ++ [encTag v]) ++
        ((if encTag v ≠ TypeNil then
            u32le (headerLen es + valuesLen pre) else []) ++
          (hdr rest (headerLen es + valuesLen pre + (encBytes v).length) ++
            valsBytes es)) := by
    rw [hd0]
    show hdrOne (k, v) _ ++
        hdr rest (headerLen es + valuesLen pre + (encBytes v).length) ++
        valsBytes es = _
    rw [hdrOne_pair]
    simp only [List.append_assoc]
  rw [hd]
  have hlen : SizeKeyLen + k.length + SizeValueType =
      (u16le k.length ++ k ++ [encTag v]).length := by
    simp only [List.length_append, u16le_length, List.length_cons,
      List.length_nil]
    rfl
  rw [hlen, List.take_left]

lemma lengthOfAt_spec (bm : List Nat) (vo : Nat) (v : Value)
    (tail : List Nat) (hv : valueWF v = true) (ht : encTag v ≠ TypeNil)
    (hd : bm.drop vo = encBytes v ++ tail) :
    lengthOfAt bm vo (encTag v) = (encBytes v).length := by
  cases v with
  | nil => exact absurd rfl ht
  | unsupported => simp [valueWF] at hv
  | str s =>
    simp only [valueWF, Bool.and_eq_true, decide_eq_true_eq] at hv
    show readU16at bm vo + 2 = (encBytes (Value.str s)).length
    rw [readU16at_drop, hd]
    show readU16 ((u16le s.length ++ s) ++ tail) + 2 = (u16le s.length ++ s).length
    rw [List.append_assoc, readU16_u16le, Nat.mod_eq_of_lt hv.1]
    simp only [List.length_append, u16le_length]
    omega
  | bool b => cases b <;> rfl
  | byte n => rfl
  | uint16 n => rfl
  | uint32 n => rfl
  | uint64 n => rfl
  | uintp n => rfl
  | int8 n => rfl
  | int16 n => rfl
  | int32 n => rfl
  | int64 n => rfl
  | intp n => rfl
  | float32 b => rfl
  | float64 b => rfl
  | time n => rfl
lemma doSplitLoop_spec (es : List (List Nat × Value)) (hwf : EntriesWF es)
    (inclO : Bool) :
    ∀ suf pre fuel ks fvoSet accM accO, es = pre ++ suf → suf ≠ [] →
    anyNonNil pre = fvoSet → suf.length + 1 ≤ fuel →
    doSplitLoop (encodeMap es) inclO fuel (headerLen pre)
        (if fvoSet then headerLen es else 0) (optOf ks) accM accO =
      some (accM ++ ((selLoop inclO ks fvoSet suf).1.map toAcc),
            accO ++ ((selLoop inclO ks fvoSet suf).2.map toAcc))
  | [], pre, fuel, ks, fvoSet, accM, accO, hsplit, hne, hfs, hfuel =>
    absurd rfl hne
  | (k, v) :: rest, pre, fuel, ks, fvoSet, accM, accO, hsplit, hne, hfs,
      hfuel => by
    rcases fuel with _ | f
    · simp at hfuel
    · have hmem : (k, v) ∈ es := by
        rw [hsplit]
        exact List.mem_append.mpr (Or.inr (List.mem_cons_self _ _))
      obtain ⟨_, hvWF⟩ := entriesWF_mem es hwf _ hmem
      obtain ⟨f1, f2, f3, f4, f5⟩ := entry_facts es pre k v rest hwf hsplit
      have hesne : es ≠ [] := by
        rw [hsplit]
        simp
      have hPlt : headerLen pre < (encodeMap es).length := by
        have h1 := headerLen_lt_of_ne es pre ((k, v) :: rest) hsplit (by simp)
        rw [encodeMap_length]
        omega
      have hsplit2 : es = (pre ++ [(k, v)]) ++ rest := by
        rw [hsplit, List.append_assoc]
        rfl
      have hH : headerLen es = headerLen (pre ++ [(k, v)]) + headerLen rest :=
        by rw [hsplit2, headerLen_append]
      have hHpos : 0 < headerLen es := headerLen_pos_of_ne es hesne
      have hadv := advanceM_optOf ks
        (((encodeMap es).drop (headerLen pre + SizeKeyLen)).take
          (readU16at (encodeMap es) (headerLen pre)))
      rw [doSplitLoop_step (encodeMap es) inclO f (headerLen pre)
        (if fvoSet then headerLen es else 0) (optOf ks) accM accO _ _
        (by omega) hadv]
      rw [f1, f2, f3]
      simp only [selLoop, kbsEmpty_optOf, List.isEmpty_iff]
      by_cases htag : encTag v = TypeNil
      · simp only [if_pos htag]
        have hko : headerLen pre + SizeKeyLen + k.length + SizeValueType =
            headerLen (pre ++ [(k, v)]) := by
          rw [headerLen_concat, entryHeaderLen_of_nil_tag k v htag]
          omega
        cases fvoSet with
        | false =>
          rw [if_pos (by simp : headerLen pre + SizeKeyLen + k.length +
            SizeValueType ≥ (if (false : Bool) = true then headerLen es
              else 0))]
          rw [if_pos (by simp : ¬(false : Bool) = true)]
          simp
        | true =>
          have hfvoVal : (if (true : Bool) = true then headerLen es else 0) =
              headerLen es := by simp
          rw [hfvoVal]
          rw [if_neg (by simp : ¬¬(true : Bool) = true)]
          by_cases hrest : rest = []
          · rw [if_pos (by
              rw [hko, hH, hrest]
              simp [headerLen] :
              headerLen pre + SizeKeyLen + k.length + SizeValueType ≥
                headerLen es)]
            rw [if_pos hrest]
            simp
          · rw [if_neg (by
              intro hc
              have h3 := headerLen_pos_of_ne rest hrest
              rw [hko] at hc
              rw [hH] at hc
              omega :
              ¬headerLen pre + SizeKeyLen + k.length + SizeValueType ≥
                headerLen es)]
            rw [if_neg hrest]
            by_cases hstop : ¬inclO = true ∧ (advanceSpec k ks).2 = []
            · rw [if_pos hstop, if_pos hstop]
              simp
            · rw [if_neg hstop, if_neg hstop, hko]
              have hfs2 : anyNonNil (pre ++ [(k, v)]) = true := by
                rw [anyNonNil_concat, hfs]
                simp
              have hih := doSplitLoop_spec es hwf inclO rest (pre ++ [(k, v)])
                f (advanceSpec k ks).2 true accM accO hsplit2 hrest hfs2
                (by
                  simp only [List.length_cons] at hfuel
                  omega)
              rw [hfvoVal] at hih
              exact hih
      · simp only [if_neg htag]
        have hko2 : headerLen pre + SizeKeyLen + k.length + SizeValueType +
            SizeValueOffset = headerLen (pre ++ [(k, v)]) := by
          rw [headerLen_concat, entryHeaderLen_of_pos_tag k v htag]
          omega
        rw [f4 htag]
        have hfvo2 : (if (if fvoSet then headerLen es else 0) = 0 then
            headerLen es + valuesLen pre
            else (if fvoSet then headerLen es else 0)) = headerLen es := by
          cases fvoSet with
          | false =>
            have hvl : valuesLen pre = 0 := (anyNonNil_false_iff pre).mp hfs
            simp [hvl]
          | true =>
            rw [show (if (true : Bool) = true then headerLen es else 0) =
              headerLen es from by simp]
            rw [if_neg (by omega : ¬headerLen es = 0)]
        rw [hfvo2]
        rw [lengthOfAt_spec (encodeMap es) (headerLen es + valuesLen pre) v
          (valsBytes rest) hvWF htag f5]
        rw [f5, List.take_left]
        rw [show headerLen pre + SizeKeyLen + k.length + SizeValueType -
          headerLen pre = SizeKeyLen + k.length + SizeValueType by omega]
        rw [entry_chunk es pre k v rest hsplit]
        have htoAcc : (u16le k.length ++ k ++ [encTag v], encBytes v) =
            toAcc (k, v) := rfl
        rw [htoAcc]
        have hfs2 : anyNonNil (pre ++ [(k, v)]) = true := by
          rw [anyNonNil_concat]
          simp [htag]
        by_cases hrest : rest = []
        · rw [if_pos (by
            rw [hko2, hH, hrest]
            simp [headerLen] :
            headerLen pre + SizeKeyLen + k.length + SizeValueType +
              SizeValueOffset ≥ headerLen es)]
          rw [if_pos hrest]
          by_cases hm : (advanceSpec k ks).1 = true
          · rw [if_pos hm, if_pos hm]
            rw [if_neg (by simp [hm] : ¬(¬(advanceSpec k ks).1 = true ∧
              inclO = true))]
            simp
          · rw [if_neg hm, if_neg hm]
            by_cases hio : inclO = true
            · rw [if_pos hio, if_pos (And.intro hm hio)]
              simp
            · rw [if_neg hio, if_neg (fun hc => hio hc.2)]
              simp
        · rw [if_neg (by
            intro hc
            have h3 := headerLen_pos_of_ne rest hrest
            rw [hko2] at hc
            rw [hH] at hc
            omega :
            ¬headerLen pre + SizeKeyLen + k.length + SizeValueType +
              SizeValueOffset ≥ headerLen es)]
          rw [if_neg hrest]
          by_cases hstop : ¬inclO = true ∧ (advanceSpec k ks).2 = []
          · rw [if_pos hstop, if_pos hstop]
            by_cases hm : (advanceSpec k ks).1 = true
            · rw [if_pos hm, if_pos hm]
              rw [if_neg (by simp [hm] : ¬(¬(advanceSpec k ks).1 = true ∧
                inclO = true))]
              simp
            · rw [if_neg hm, if_neg hm]
              by_cases hio : inclO = true
              · exact absurd hio (by simpa using hstop.1)
              · rw [if_neg hio, if_neg (fun hc => hio hc.2)]
                simp
          · rw [if_neg hstop, if_neg hstop, hko2]
            have hih := doSplitLoop_spec es hwf inclO rest (pre ++ [(k, v)])
              f (advanceSpec k ks).2 true
              (if (advanceSpec k ks).1 = true then accM ++ [toAcc (k, v)]
               else accM)
              (if ¬(advanceSpec k ks).1 = true ∧ inclO = true then
                accO ++ [toAcc (k, v)] else accO)
              hsplit2 hrest hfs2
              (by
                simp only [List.length_cons] at hfuel
                omega)
            rw [show (if (true : Bool) = true then headerLen es else 0) =
              headerLen es by simp] at hih
            rw [hih]
            by_cases hm : (advanceSpec k ks).1 = true
            · rw [if_pos hm, if_pos hm]
              rw [if_neg (by simp [hm] : ¬(¬(advanceSpec k ks).1 = true ∧
                inclO = true))]
              simp
            · rw [if_neg hm, if_neg hm]
              by_cases hio : inclO = true
              · rw [if_pos hio, if_pos (And.intro hm hio)]
                simp
              · rw [if_neg hio, if_neg (fun hc => hio hc.2)]
lemma accKeysLen_toAcc (sel : List (List Nat × Value))
    (hnn : ∀ e ∈ sel, encTag e.2 ≠ TypeNil) :
    accKeysLen (sel.map toAcc) = headerLen sel := by
  induction sel with
  | nil => rfl
  | cons e r ih =>
    have htag := hnn e (List.mem_cons_self _ _)
    have ihr := ih (fun e2 he2 => hnn e2 (List.mem_cons_of_mem _ he2))
    show ((List.map toAcc (e :: r)).map
      (fun x => x.1.length + SizeValueOffset)).sum = headerLen (e :: r)
    simp only [List.map_cons, List.sum_cons]
    have hr : ((List.map toAcc r).map
        (fun x => x.1.length + SizeValueOffset)).sum = headerLen r := ihr
    rw [hr]
    simp only [headerLen]
    have h3 : entryHeaderLen e =
        SizeKeyLen + e.1.length + SizeValueType + SizeValueOffset := by
      have heta : (e.1, e.2) = e := rfl
      rw [← heta]
      exact entryHeaderLen_of_pos_tag e.1 e.2 htag
    rw [h3]
    have h4 : (toAcc e).1.length = SizeKeyLen + e.1.length + SizeValueType := by
      show (u16le e.1.length ++ e.1 ++ [encTag e.2]).length = _
      simp only [List.length_append, u16le_length, List.length_cons,
        List.length_nil]
      show 2 + e.1.length + (0 + 1) = SizeKeyLen + e.1.length + SizeValueType
      unfold SizeKeyLen SizeValueType
      omega
    rw [h4]

lemma buildFromSliced_hdr (sel : List (List Nat × Value)) (K : Nat)
    (hnn : ∀ e ∈ sel, encTag e.2 ≠ TypeNil) :
    ∀ n, ((((sel.map toAcc).map Prod.fst).zip
        (accOffsets (sel.map toAcc) n)).map
      (fun kv => kv.1 ++
        if kv.2 ≥ 0 then u32le (kv.2.toNat + K) else [])).flatten =
      hdr sel (n + K) := by
  induction sel with
  | nil => intro n; rfl
  | cons e r ih =>
    intro n
    have htag := hnn e (List.mem_cons_self _ _)
    simp only [List.map_cons, accOffsets, List.zip_cons_cons, List.map_cons,
      List.flatten_cons]
    rw [ih (fun e2 he2 => hnn e2 (List.mem_cons_of_mem _ he2))
      (n + (toAcc e).2.length)]
    simp only [hdr]
    have harg : ((n : Int)).toNat = n := Int.toNat_natCast n
    rw [if_pos (Int.natCast_nonneg n), harg]
    have hho : hdrOne e (n + K) =
        (toAcc e).1 ++ u32le (n + K) := by
      show hdrOne (e.1, e.2) (n + K) = _
      rw [hdrOne_pair, if_pos htag]
      rfl
    rw [hho]
    have hvo : n + (toAcc e).2.length + K = n + K + (encBytes e.2).length := by
      show n + (encBytes e.2).length + K = _
      omega
    rw [hvo]

lemma valsFlatten_toAcc (sel : List (List Nat × Value)) :
    ((sel.map toAcc).map Prod.snd).flatten = valsBytes sel := by
  induction sel with
  | nil => rfl
  | cons e r ih =>
    simp only [List.map_cons, List.flatten_cons, valsBytes, ih]
    rfl

/-- Packing the accumulated chunks of an all-non-`Nil` entry list rebuilds
exactly the canonical buffer of those entries: the rebased offsets and the
repacked value region coincide with a fresh Builder run. -/
lemma buildFromSliced_toAcc (sel : List (List Nat × Value))
    (hnn : ∀ e ∈ sel, encTag e.2 ≠ TypeNil) :
    buildFromSliced (accKeysLen (sel.map toAcc)) (accValuesLen (sel.map toAcc))
      ((sel.map toAcc).map Prod.fst) (accOffsets (sel.map toAcc) 0)
      ((sel.map toAcc).map Prod.snd) = encodeMap sel := by
  unfold buildFromSliced
  rw [buildFromSliced_hdr sel (accKeysLen (sel.map toAcc)) hnn 0]
  rw [valsFlatten_toAcc, accKeysLen_toAcc sel hnn]
  rw [encodeMap_eq]
  congr 1
  rw [Nat.zero_add]
lemma selLoop_sublist (inclO : Bool) : ∀ ks fvoSet
    (suf : List (List Nat × Value)),
    (selLoop inclO ks fvoSet suf).1.Sublist suf ∧
    (selLoop inclO ks fvoSet suf).2.Sublist suf
  | ks, fvoSet, [] => by simp [selLoop]
  | ks, fvoSet, (k, v) :: rest => by
    have ihA := selLoop_sublist inclO (advanceSpec k ks).2 fvoSet rest
    have ihB := selLoop_sublist inclO (advanceSpec k ks).2 true rest
    simp only [selLoop]
    split_ifs <;>
      first
        | exact ⟨List.nil_sublist _, List.nil_sublist _⟩
        | exact ⟨ihA.1.cons _, ihA.2.cons _⟩
        | exact ⟨(List.nil_sublist rest).cons₂ _, List.nil_sublist _⟩
        | exact ⟨List.nil_sublist _, (List.nil_sublist rest).cons₂ _⟩
        | exact ⟨ihB.1.cons₂ _, ihB.2.cons _⟩
        | exact ⟨ihB.1.cons _, ihB.2.cons₂ _⟩
        | exact ⟨ihB.1.cons _, ihB.2.cons _⟩

lemma selLoop_nonNil (inclO : Bool) : ∀ ks fvoSet
    (suf : List (List Nat × Value)),
    (∀ e ∈ (selLoop inclO ks fvoSet suf).1, encTag e.2 ≠ TypeNil) ∧
    (∀ e ∈ (selLoop inclO ks fvoSet suf).2, encTag e.2 ≠ TypeNil)
  | ks, fvoSet, [] => by simp [selLoop]
  | ks, fvoSet, (k, v) :: rest => by
    have ihA := selLoop_nonNil inclO (advanceSpec k ks).2 fvoSet rest
    have ihB := selLoop_nonNil inclO (advanceSpec k ks).2 true rest
    have hnilp : ∀ e ∈ ([] : List (List Nat × Value)),
        encTag e.2 ≠ TypeNil := by simp
    simp only [selLoop]
    by_cases htag : encTag v = TypeNil
    · rw [if_pos htag]
      by_cases hf : ¬fvoSet = true
      · rw [if_pos hf]
        exact ⟨hnilp, hnilp⟩
      · rw [if_neg hf]
        by_cases hrest : rest = []
        · rw [if_pos hrest]
          exact ⟨hnilp, hnilp⟩
        · rw [if_neg hrest]
          by_cases hstop : ¬inclO = true ∧ (advanceSpec k ks).2 = []
          · rw [if_pos hstop]
            exact ⟨hnilp, hnilp⟩
          · rw [if_neg hstop]
            exact ihA
    · rw [if_neg htag]
      have hcons1 : ∀ (T1 : List (List Nat × Value)),
          (∀ e ∈ T1, encTag e.2 ≠ TypeNil) →
          ∀ e ∈ (k, v) :: T1, encTag e.2 ≠ TypeNil := by
        intro T1 hT e he
        rcases List.mem_cons.mp he with h | h
        · rw [h]
          exact htag
        · exact hT e h
      by_cases hrest : rest = []
      · rw [if_pos hrest]
        by_cases hm : (advanceSpec k ks).1 = true
        · rw [if_pos hm]
          exact ⟨hcons1 _ hnilp, hnilp⟩
        · rw [if_neg hm]
          by_cases hio : inclO = true
          · rw [if_pos hio]
            exact ⟨hnilp, hcons1 _ hnilp⟩
          · rw [if_neg hio]
            exact ⟨hnilp, hnilp⟩
      · rw [if_neg hrest]
        by_cases hstop : ¬inclO = true ∧ (advanceSpec k ks).2 = []
        · rw [if_pos hstop]
          by_cases hm : (advanceSpec k ks).1 = true
          · rw [if_pos hm]
            exact ⟨hcons1 _ hnilp, hnilp⟩
          · rw [if_neg hm]
            by_cases hio : inclO = true
            · rw [if_pos hio]
              exact ⟨hnilp, hcons1 _ hnilp⟩
            · rw [if_neg hio]
              exact ⟨hnilp, hnilp⟩
        · rw [if_neg hstop]
          by_cases hm : (advanceSpec k ks).1 = true
          · rw [if_pos hm]
            exact ⟨hcons1 _ ihB.1, ihB.2⟩
          · rw [if_neg hm]
            by_cases hio : inclO = true
            · rw [if_pos hio]
              exact ⟨ihB.1, hcons1 _ ihB.2⟩
            · rw [if_neg hio]
              exact ihB

lemma selLoop_partition (inclO : Bool) (hio : inclO = true) :
    ∀ ks fvoSet (suf : List (List Nat × Value)),
    (∀ e ∈ suf, encTag e.2 ≠ TypeNil) →
    List.Perm
      ((selLoop inclO ks fvoSet suf).1 ++ (selLoop inclO ks fvoSet suf).2) suf
  | ks, fvoSet, [], _ => by simp [selLoop]
  | ks, fvoSet, (k, v) :: rest, hnn => by
    have htag : encTag v ≠ TypeNil := hnn (k, v) (List.mem_cons_self _ _)
    have ih := selLoop_partition inclO hio (advanceSpec k ks).2 true rest
      (fun e he => hnn e (List.mem_cons_of_mem _ he))
    simp only [selLoop]
    rw [if_neg htag]
    by_cases hrest : rest = []
    · rw [if_pos hrest]
      subst hrest
      by_cases hm : (advanceSpec k ks).1 = true
      · rw [if_pos hm]
        simp
      · rw [if_neg hm, if_pos hio]
        simp
    · rw [if_neg hrest]
      rw [if_neg (by rw [hio]; simp :
        ¬(¬inclO = true ∧ (advanceSpec k ks).2 = []))]
      by_cases hm : (advanceSpec k ks).1 = true
      · rw [if_pos hm]
        simp only [List.cons_append]
        exact ih.cons (k, v)
      · rw [if_neg hm, if_pos hio]
        exact List.perm_middle.trans (ih.cons (k, v))

lemma optOf_ne_nil (l : List (List Nat)) (h : l ≠ []) : optOf l = some l := by
  cases l with
  | nil => exact absurd rfl h
  | cons a r => rfl

/-- `doSplit` on a non-empty buffer with an empty requested-key set panics
(`keyBytes[0]` on an empty non-nil slice). -/
lemma doSplit_panic (es : List (List Nat × Value)) (hes : es ≠ [])
    (inclO : Bool) : doSplit (encodeMap es) inclO [] = none := by
  have hlen : 0 < (encodeMap es).length := by
    rw [encodeMap_length]
    have := headerLen_pos_of_ne es hes
    omega
  show (match doSplitLoop (encodeMap es) inclO ((encodeMap es).length + 1) 0 0
      (some (List.insertionSort keyLe [])) [] [] with
    | none => none
    | some (accM, accO) =>
      some (buildFromSliced (accKeysLen accM) (accValuesLen accM)
          (accM.map Prod.fst) (accOffsets accM 0) (accM.map Prod.snd),
        if inclO then
          buildFromSliced (accKeysLen accO) (accValuesLen accO)
            (accO.map Prod.fst) (accOffsets accO 0) (accO.map Prod.snd)
        else [])) = none
  have hloop : doSplitLoop (encodeMap es) inclO ((encodeMap es).length + 1)
      0 0 (some (List.insertionSort keyLe [])) [] [] = none := by
    simp only [doSplitLoop]
    rw [if_neg (by omega : ¬(0 ≥ (encodeMap es).length))]
    rfl
  rw [hloop]

/-- `doSplit` on a well-formed buffer with a non-empty requested-key set (or
an empty buffer): the matched output is the canonical buffer of the entries
`selLoop` marks matched, and the omitted one (when requested) of the rest. -/
lemma doSplit_eq (es : List (List Nat × Value)) (hwf : EntriesWF es)
    (inclO : Bool) (keys : List (List Nat)) (hk : keys ≠ [] ∨ es = []) :
    doSplit (encodeMap es) inclO keys =
      some
        (encodeMap (selLoop inclO (List.insertionSort keyLe keys) false es).1,
        if inclO then
          encodeMap (selLoop inclO (List.insertionSort keyLe keys) false es).2
        else []) := by
  by_cases hes : es = []
  · subst hes
    cases inclO <;> cases keys <;> rfl
  · have hkeys : keys ≠ [] := by
      rcases hk with h | h
      · exact h
      · exact absurd h hes
    have hsorted : List.insertionSort keyLe keys ≠ [] := by
      intro hc
      have := (List.perm_insertionSort keyLe keys).length_eq
      rw [hc] at this
      exact hkeys (List.eq_nil_of_length_eq_zero this.symm)
    have hfuel : es.length + 1 ≤ (encodeMap es).length + 1 := by
      have h1 := length_le_headerLen es
      rw [encodeMap_length]
      omega
    have hmain := doSplitLoop_spec es hwf inclO es []
      ((encodeMap es).length + 1) (List.insertionSort keyLe keys) false [] []
      rfl hes rfl hfuel
    rw [optOf_ne_nil _ hsorted] at hmain
    simp only [headerLen, Bool.false_eq_true, if_false] at hmain
    show (match doSplitLoop (encodeMap es) inclO ((encodeMap es).length + 1)
        0 0 (some (List.insertionSort keyLe keys)) [] [] with
      | none => none
      | some (accM, accO) =>
        some (buildFromSliced (accKeysLen accM) (accValuesLen accM)
            (accM.map Prod.fst) (accOffsets accM 0) (accM.map Prod.snd),
          if inclO then
            buildFromSliced (accKeysLen accO) (accValuesLen accO)
              (accO.map Prod.fst) (accOffsets accO 0) (accO.map Prod.snd)
          else [])) = _
    rw [hmain]
    simp only [List.nil_append]
    rw [buildFromSliced_toAcc _
      (selLoop_nonNil inclO (List.insertionSort keyLe keys) false es).1]
    rw [buildFromSliced_toAcc _
      (selLoop_nonNil inclO (List.insertionSort keyLe keys) false es).2]
lemma value_tag_ne_nil (v : Value) (hv : valueWF v = true)
    (hne : v ≠ Value.nil) : encTag v ≠ TypeNil := by
  intro hc
  rcases (encTag_eq_zero_iff v).mp hc with h | h
  · exact hne h
  · exact valueWF_ne_unsupported v hv h

/-- Claim C3 counterexample: for `m = {"a": nil}` and `S = {"a"}`, the entry
stored with a `Nil` tag appears in neither `Split` output — both halves are
empty buffers decoding to empty maps, so their union misses the entry. -/
theorem claim3_counterexample :
    (([97], Value.nil) ∈ ([([97], Value.nil)] : List (List Nat × Value))) ∧
    Split (NewBM [([97], Value.nil)]) [[97]] = some ([], []) ∧
    AsMap ([] : List Nat) ++ AsMap ([] : List Nat) = [] := by
  refine ⟨by decide, by decide, rfl⟩

/-- Claim C3 amended: for maps whose values are all non-`Nil` and a
non-empty requested key set, `Split` yields two buffers whose decoded entry
lists are a partition of the map: their concatenation is a permutation of
the entries (union equals `m`) and their key sets are disjoint. -/
theorem claim3_split_partition (es es' : List (List Nat × Value))
    (S : List (List Nat)) (hwf : EntriesWF es) (hp : List.Perm es' es)
    (hnn : ∀ e ∈ es, e.2 ≠ Value.nil) (hS : S ≠ []) :
    ∃ b₁ b₂, Split (NewBM es') S = some (b₁, b₂) ∧
      List.Perm (AsMap b₁ ++ AsMap b₂) es ∧
      ∀ k2, k2 ∈ (AsMap b₁).map Prod.fst → k2 ∉ (AsMap b₂).map Prod.fst := by
  have hb : NewBM es' = encodeMap es := newBM_eq es es' hwf hp
  have hnn2 : ∀ e ∈ es, encTag e.2 ≠ TypeNil := fun e he =>
    value_tag_ne_nil e.2 (entriesWF_mem es hwf e he).2 (hnn e he)
  have hsplit := doSplit_eq es hwf true S (Or.inl hS)
  have hsub := selLoop_sublist true (List.insertionSort keyLe S) false es
  have hwf1 : EntriesWF
      (selLoop true (List.insertionSort keyLe S) false es).1 :=
    entriesWF_sublist _ es hsub.1 hwf
  have hwf2 : EntriesWF
      (selLoop true (List.insertionSort keyLe S) false es).2 :=
    entriesWF_sublist _ es hsub.2 hwf
  refine ⟨encodeMap (selLoop true (List.insertionSort keyLe S) false es).1,
    encodeMap (selLoop true (List.insertionSort keyLe S) false es).2,
    ?_, ?_, ?_⟩
  · show Split (NewBM es') S = _
    rw [hb]
    exact hsplit
  · rw [asMap_encodeMap _ hwf1, asMap_encodeMap _ hwf2]
    exact selLoop_partition true rfl (List.insertionSort keyLe S) false es hnn2
  · rw [asMap_encodeMap _ hwf1, asMap_encodeMap _ hwf2]
    have hperm := selLoop_partition true rfl (List.insertionSort keyLe S)
      false es hnn2
    have hnd : (es.map Prod.fst).Nodup :=
      keysStrictSorted_nodup _ (entriesWF_sorted es hwf)
    have hnd2 := ((hperm.map Prod.fst).nodup_iff).mpr hnd
    rw [List.map_append] at hnd2
    intro k2 h1 h2
    exact (List.disjoint_of_nodup_append hnd2) h1 h2

theorem claim3_split_partition_witness :
    EntriesWF [([97], Value.bool true), ([98], Value.uint16 5)] ∧
    List.Perm [([98], Value.uint16 5), ([97], Value.bool true)]
      [([97], Value.bool true), ([98], Value.uint16 5)] ∧
    (∀ e ∈ ([([97], Value.bool true), ([98], Value.uint16 5)] :
        List (List Nat × Value)), e.2 ≠ Value.nil) ∧
    ([[97]] : List (List Nat)) ≠ [] ∧
    (∃ b₁ b₂, Split (NewBM [([98], Value.uint16 5), ([97], Value.bool true)])
        [[97]] = some (b₁, b₂) ∧
      List.Perm (AsMap b₁ ++ AsMap b₂)
        [([97], Value.bool true), ([98], Value.uint16 5)] ∧
      ∀ k2, k2 ∈ (AsMap b₁).map Prod.fst →
        k2 ∉ (AsMap b₂).map Prod.fst) :=
  ⟨by decide, by decide, by decide, by decide,
    claim3_split_partition _ _ _ (by decide) (by decide) (by decide)
      (by decide)⟩

/-- Claim C5: a requested key absent from the source never appears in the
matched output of `Slice` — no `Nil`-tagged placeholder entry is emitted. -/
theorem claim5_no_placeholder (es es' : List (List Nat × Value))
    (S : List (List Nat)) (k : List Nat) (hwf : EntriesWF es)
    (hp : List.Perm es' es) (hkS : k ∈ S) (hk : k ∉ es.map Prod.fst) :
    ∃ b, Slice (NewBM es') S = some b ∧ ∀ v, (k, v) ∉ AsMap b := by
  have hS : S ≠ [] := by
    intro hc
    rw [hc] at hkS
    exact absurd hkS (by simp)
  have hb : NewBM es' = encodeMap es := newBM_eq es es' hwf hp
  have hsplit := doSplit_eq es hwf false S (Or.inl hS)
  have hsub := selLoop_sublist false (List.insertionSort keyLe S) false es
  have hwf1 : EntriesWF
      (selLoop false (List.insertionSort keyLe S) false es).1 :=
    entriesWF_sublist _ es hsub.1 hwf
  refine ⟨encodeMap (selLoop false (List.insertionSort keyLe S) false es).1,
    ?_, ?_⟩
  · show Slice (NewBM es') S = _
    rw [hb]
    unfold Slice
    rw [hsplit]
    rfl
  · rw [asMap_encodeMap _ hwf1]
    intro v hv
    have hmem : (k, v) ∈ es := hsub.1.subset hv
    exact hk (List.mem_map.mpr ⟨(k, v), hmem, rfl⟩)

theorem claim5_no_placeholder_witness :
    EntriesWF [([97], Value.nil), ([99], Value.bool true)] ∧
    List.Perm [([97], Value.nil), ([99], Value.bool true)]
      [([97], Value.nil), ([99], Value.bool true)] ∧
    (([98] : List Nat) ∈ ([[98], [99]] : List (List Nat))) ∧
    (([98] : List Nat) ∉
      ([([97], Value.nil), ([99], Value.bool true)] :
        List (List Nat × Value)).map Prod.fst) ∧
    (∃ b, Slice (NewBM [([97], Value.nil), ([99], Value.bool true)])
        [[98], [99]] = some b ∧ ∀ v, (([98] : List Nat), v) ∉ AsMap b) :=
  ⟨by decide, by decide, by decide, by decide,
    claim5_no_placeholder [([97], Value.nil), ([99], Value.bool true)]
      [([97], Value.nil), ([99], Value.bool true)] [[98], [99]] [98]
      (by decide) (by decide) (by decide) (by decide)⟩
/-- Claim C4: buffers produced by the Builder satisfy the
header/value-boundary invariant — when no entry has a value the header is
the whole buffer; the first non-`Nil` entry's stored offset is the header
length; every non-`Nil` entry's stored offset points at its own encoded
value bytes — and every buffer produced by `doSplit` (`Slice`/`Split`) is
itself the canonical Builder encoding of a well-formed entry list, on which
`Get` again behaves correctly: the format is closed under projection. -/
theorem claim4_closed_under_projection (es : List (List Nat × Value))
    (hwf : EntriesWF es) :
    (valuesLen es = 0 → (encodeMap es).length = headerLen es) ∧
    (∀ pre e post, es = pre ++ e :: post → encTag e.2 ≠ TypeNil →
      anyNonNil pre = false →
      readU32at (encodeMap es)
          (headerLen pre + SizeKeyLen + e.1.length + SizeValueType) =
        headerLen es) ∧
    (∀ pre e post, es = pre ++ e :: post → encTag e.2 ≠ TypeNil →
      ((encodeMap es).drop (readU32at (encodeMap es)
          (headerLen pre + SizeKeyLen + e.1.length + SizeValueType))).take
        (encBytes e.2).length = encBytes e.2) ∧
    (∀ inclO S b₁ b₂, doSplit (encodeMap es) inclO S = some (b₁, b₂) →
      ∃ es₁ es₂, EntriesWF es₁ ∧ EntriesWF es₂ ∧ b₁ = encodeMap es₁ ∧
        b₂ = encodeMap es₂ ∧ (∀ k2, Get b₁ k2 = lookupList es₁ k2) ∧
        (∀ k2, Get b₂ k2 = lookupList es₂ k2)) := by
  refine ⟨?_, ?_, ?_, ?_⟩
  · intro hv
    rw [encodeMap_length, hv]
    omega
  · intro pre e post hsplit htag hpre
    obtain ⟨_, _, _, f4, _⟩ := entry_facts es pre e.1 e.2 post hwf hsplit
    rw [f4 htag, (anyNonNil_false_iff pre).mp hpre]
    omega
  · intro pre e post hsplit htag
    obtain ⟨_, _, _, f4, f5⟩ := entry_facts es pre e.1 e.2 post hwf hsplit
    rw [f4 htag, f5, List.take_left]
  · intro inclO S b₁ b₂ hds
    by_cases hS : S = []
    · subst hS
      by_cases hes : es = []
      · subst hes
        have hcomp : doSplit (encodeMap []) inclO [] = some ([], []) := by
          cases inclO <;> rfl
        rw [hcomp] at hds
        simp only [Option.some.injEq, Prod.mk.injEq] at hds
        refine ⟨[], [], by decide, by decide, hds.1.symm, hds.2.symm, ?_, ?_⟩
        · intro k2
          rw [hds.1.symm]
          exact get_encodeMap [] (by decide) k2
        · intro k2
          rw [hds.2.symm]
          exact get_encodeMap [] (by decide) k2
      · rw [doSplit_panic es hes inclO] at hds
        exact absurd hds (by simp)
    · have hsplit := doSplit_eq es hwf inclO S (Or.inl hS)
      rw [hsplit] at hds
      simp only [Option.some.injEq, Prod.mk.injEq] at hds
      have hsub := selLoop_sublist inclO (List.insertionSort keyLe S) false es
      have hwf1 : EntriesWF
          (selLoop inclO (List.insertionSort keyLe S) false es).1 :=
        entriesWF_sublist _ es hsub.1 hwf
      have hwf2 : EntriesWF
          (selLoop inclO (List.insertionSort keyLe S) false es).2 :=
        entriesWF_sublist _ es hsub.2 hwf
      by_cases hio : inclO = true
      · refine ⟨(selLoop inclO (List.insertionSort keyLe S) false es).1,
          (selLoop inclO (List.insertionSort keyLe S) false es).2,
          hwf1, hwf2, hds.1.symm, ?_, ?_, ?_⟩
        · rw [← hds.2, if_pos hio]
        · intro k2
          rw [hds.1.symm]
          exact get_encodeMap _ hwf1 k2
        · intro k2
          rw [← hds.2, if_pos hio]
          exact get_encodeMap _ hwf2 k2
      · refine ⟨(selLoop inclO (List.insertionSort keyLe S) false es).1,
          [], hwf1, by decide, hds.1.symm, ?_, ?_, ?_⟩
        · rw [← hds.2, if_neg hio]
          rfl
        · intro k2
          rw [hds.1.symm]
          exact get_encodeMap _ hwf1 k2
        · intro k2
          rw [← hds.2, if_neg hio]
          exact get_encodeMap [] (by decide) k2

theorem claim4_closed_under_projection_witness :
    EntriesWF [([97], Value.nil), ([98], Value.str [104])] ∧
    ((valuesLen [([97], Value.nil), ([98], Value.str [104])] = 0 →
      (encodeMap [([97], Value.nil), ([98], Value.str [104])]).length =
        headerLen [([97], Value.nil), ([98], Value.str [104])]) ∧
    (∀ pre e post,
      [([97], Value.nil), ([98], Value.str [104])] = pre ++ e :: post →
      encTag e.2 ≠ TypeNil → anyNonNil pre = false →
      readU32at (encodeMap [([97], Value.nil), ([98], Value.str [104])])
          (headerLen pre + SizeKeyLen + e.1.length + SizeValueType) =
        headerLen [([97], Value.nil), ([98], Value.str [104])]) ∧
    (∀ pre e post,
      [([97], Value.nil), ([98], Value.str [104])] = pre ++ e :: post →
      encTag e.2 ≠ TypeNil →
      ((encodeMap [([97], Value.nil), ([98], Value.str [104])]).drop
          (readU32at (encodeMap [([97], Value.nil), ([98], Value.str [104])])
            (headerLen pre + SizeKeyLen + e.1.length + SizeValueType))).take
        (encBytes e.2).length = encBytes e.2) ∧
    (∀ inclO S b₁ b₂,
      doSplit (encodeMap [([97], Value.nil), ([98], Value.str [104])])
          inclO S = some (b₁, b₂) →
      ∃ es₁ es₂, EntriesWF es₁ ∧ EntriesWF es₂ ∧ b₁ = encodeMap es₁ ∧
        b₂ = encodeMap es₂ ∧ (∀ k2, Get b₁ k2 = lookupList es₁ k2) ∧
        (∀ k2, Get b₂ k2 = lookupList es₂ k2))) :=
  ⟨by decide, claim4_closed_under_projection _ (by decide)⟩
/-- Claim C10: the older revision's `Slice` is documented to make requested
keys missing from the source "appear in the result with a nil value", and it
does emit such `Nil` placeholders in the simple case (last conjunct: for
`m = {"b": true}`, `S = {"a"}` the result decodes to `{"a": nil}`).  But at
the failing input `m = {"a": nil, "c": nil}`, `S = {"b"}` — where `"b"` is
absent and compares below the stored key `"c"` — the scan breaks after the
first entry (the `keyOffset >= firstValueOffset` check is not guarded by
`firstValueOffset > 0`, and `firstValueOffset` is still 0 after a `Nil`
entry), so the requested key is never emitted: the output is the empty
buffer and decodes to the empty map, contradicting the function's own
documentation. -/
theorem claim10_slice_old_bug :
    SliceOld (NewBM [([97], Value.nil), ([99], Value.nil)]) [[98]] =
      some [] ∧
    AsMap ([] : List Nat) = [] ∧
    bytesCompare [98] [99] = Ordering.lt ∧
    (([98] : List Nat) ∉
      ([([97], Value.nil), ([99], Value.nil)] :
        List (List Nat × Value)).map Prod.fst) ∧
    (SliceOld (NewBM [([98], Value.bool true)]) [[97]]).map AsMap =
      some [([97], Value.nil)] := by
  refine ⟨by decide, rfl, by decide, by decide, by decide⟩
